import Mathlib

/-! Verification of the SimpleSparseMerkle sparse-Merkle-tree core.

This file shallowly embeds the repository's core modules
(src/sparse_merkle_tree.rs, src/tree_hasher.rs, src/kv_store.rs,
src/proof.rs) and proves or refutes the specification claims about them.

Modelling choices:
  - byte strings (&[u8] / Bytes) are lists of naturals, one byte per element;
  - the engine is generic over the hash function H (the source is generic
    over S::Hasher : Digest) and over the key-value store (trait KVStore);
    digests are 32 bytes as in the Sha256 instantiation the repository uses;
  - fallible store operations return their new state paired with a Result
    (mirroring &mut self plus Result<(), Error>); the error payload is Unit;
  - Rust's panicking byte indexing path[i / 8] is modelled with getD, which
    agrees with it whenever the digest has its full 32 bytes. -/

/-- Byte strings: a list of naturals, one byte per element. -/
abbrev Bytes := List Nat

/-- TreeHasher.zero_value: vec![0; 32] for a 32-byte digest
(the canonical empty-subtree digest, and the initial root). -/
def zero_value : Bytes := List.replicate 32 0

/-- TreeHasher.digest_leaf: digest of 0x00 prefix, then path, then value. -/
def digest_leaf (H : Bytes → Bytes) (path value : Bytes) : Bytes :=
  H (0 :: (path ++ value))

/-- TreeHasher.digest_node: digest of 0x01 prefix, then left, then right. -/
def digest_node (H : Bytes → Bytes) (left right : Bytes) : Bytes :=
  H (1 :: (left ++ right))

/-- The bit of the key path used at level i, exactly the source expression
(path[i / 8] shifted right by 7 - i mod 8, masked with 1); getD stands in
for Rust's panicking index and agrees with it on 32-byte paths. -/
def pathBit (path : Bytes) (i : Nat) : Nat :=
  (path.getD (i / 8) 0 >>> (7 - i % 8)) &&& 1

/-- The trait KVStore: get borrows the store, set and remove mutate it
(modelled as returning the new state) and may fail. -/
structure KVStore (σ : Type) where
  get : σ → Bytes → Except Unit (Option Bytes)
  set : σ → Bytes → Bytes → σ × Except Unit Unit
  remove : σ → Bytes → σ × Except Unit Unit

/-- The in-memory map backing SimpleKVStore (HashMap of byte string to
byte string), as an association list with at most one binding per key. -/
abbrev AL := List (Bytes × Bytes)

/-- HashMap lookup. -/
def alGet : AL → Bytes → Option Bytes
  | [], _ => none
  | (k', v') :: t, k => if k' = k then some v' else alGet t k

/-- HashMap insert: overwrite the binding when the key is present. -/
def alSet : AL → Bytes → Bytes → AL
  | [], k, v => [(k, v)]
  | (k', v') :: t, k, v => if k' = k then (k, v) :: t else (k', v') :: alSet t k v

/-- HashMap remove. -/
def alRemove : AL → Bytes → AL
  | [], _ => []
  | (k', v') :: t, k => if k' = k then t else (k', v') :: alRemove t k

/-- SimpleKVStore: the reference in-memory store; no operation ever fails. -/
def simpleKV : KVStore AL :=
  ⟨fun s k => .ok (alGet s k),
   fun s k v => (alSet s k v, .ok ()),
   fun s k => (alRemove s k, .ok ())⟩

/-- A conforming store whose set fails once a write budget is exhausted:
the state is the map plus the number of writes that will still succeed.
Used to exercise the StoreError propagation path of the engine. -/
def budgetKV : KVStore (AL × Nat) :=
  ⟨fun s k => .ok (alGet s.1 k),
   fun s k v => if s.2 = 0 then (s, .error ()) else ((alSet s.1 k v, s.2 - 1), .ok ()),
   fun s k => ((alRemove s.1 k, s.2), .ok ())⟩

/-- SparseMerkleTree: the current root digest plus the store handle. -/
structure SparseMerkleTree (σ : Type) where
  root : Bytes
  store : σ

/-- SparseMerkleTree::new: root starts at the zero value. -/
def SparseMerkleTree.new {σ : Type} (s : σ) : SparseMerkleTree σ :=
  ⟨zero_value, s⟩

/-- SparseMerkleTree::get: None immediately when the root is the zero value,
otherwise the flat store entry at the hashed key. -/
def SparseMerkleTree.get {σ : Type} (ops : KVStore σ) (H : Bytes → Bytes)
    (t : SparseMerkleTree σ) (key : Bytes) : Except Unit (Option Bytes) :=
  if t.root = zero_value then .ok none else ops.get t.store (H key)

/-- The body of update's for-loop over the bit positions still to process:
combine the running digest with the zero-value sibling according to the
path bit, persist parent to left-concat-right, and continue; a failing
set aborts with the store as mutated so far. -/
def updateLoop {σ : Type} (ops : KVStore σ) (H : Bytes → Bytes) (path : Bytes) :
    List Nat → Bytes → σ → Bytes × σ × Except Unit Unit
  | [], current, s => (current, s, .ok ())
  | i :: rest, current, s =>
    let lr := if pathBit path i = 0 then (current, zero_value) else (zero_value, current)
    let current2 := digest_node H lr.1 lr.2
    match ops.set s current2 (lr.1 ++ lr.2) with
    | (s2, .ok _) => updateLoop ops H path rest current2 s2
    | (s2, .error e) => (current2, s2, .error e)

/-- The index sequence of update's walk: (0..256).rev(). -/
def revRange256 : List Nat := (List.range 256).reverse

/-- SparseMerkleTree::update: hash the key into a path, persist the raw
path-to-value binding and the leaf record, walk the 256 levels bottom-up,
and only on full success publish the new root. -/
def SparseMerkleTree.update {σ : Type} (ops : KVStore σ) (H : Bytes → Bytes)
    (t : SparseMerkleTree σ) (key value : Bytes) :
    SparseMerkleTree σ × Except Unit Unit :=
  let path := H key
  let leafHash := digest_leaf H path value
  match ops.set t.store path value with
  | (s, .error e) => (⟨t.root, s⟩, .error e)
  | (s, .ok _) =>
    match ops.set s leafHash (zero_value ++ zero_value) with
    | (s2, .error e) => (⟨t.root, s2⟩, .error e)
    | (s2, .ok _) =>
      match updateLoop ops H path revRange256 leafHash s2 with
      | (current, s3, .ok _) => (⟨current, s3⟩, .ok ())
      | (_, s3, .error e) => (⟨t.root, s3⟩, .error e)

/-- SparseMerkleTree::remove: delete the flat binding at the hashed key and
reset the root to the zero value. -/
def SparseMerkleTree.remove {σ : Type} (ops : KVStore σ) (H : Bytes → Bytes)
    (t : SparseMerkleTree σ) (key : Bytes) :
    SparseMerkleTree σ × Except Unit Unit :=
  match ops.remove t.store (H key) with
  | (s, .error e) => (⟨t.root, s⟩, .error e)
  | (s, .ok _) => (⟨zero_value, s⟩, .ok ())

/-- MerkleProof: the ordered sibling digests recorded by proof generation. -/
structure MerkleProof where
  side_nodes : List Bytes

/-- The body of generate_proof's descent: stop on the zero value, otherwise
read the node record at the current digest (a missing record reads as two
zero-value halves), split it in the middle, push the half off the key's
path and descend into the half on it. -/
def genProofLoop {σ : Type} (ops : KVStore σ) (H : Bytes → Bytes) (s : σ)
    (path : Bytes) : List Nat → Bytes → List Bytes → Except Unit (List Bytes)
  | [], _, acc => .ok acc
  | i :: rest, current, acc =>
    if current = zero_value then .ok acc
    else
      match ops.get s current with
      | .error e => .error e
      | .ok nv =>
        let nodeValue := nv.getD (zero_value ++ zero_value)
        let left := nodeValue.take (nodeValue.length / 2)
        let right := nodeValue.drop (nodeValue.length / 2)
        if pathBit path i = 0 then genProofLoop ops H s path rest left (acc ++ [right])
        else genProofLoop ops H s path rest right (acc ++ [left])

/-- SparseMerkleTree::generate_proof: walk from the root toward the leaf of
the hashed key for at most 256 levels, collecting side nodes in descent
order. -/
def SparseMerkleTree.generate_proof {σ : Type} (ops : KVStore σ)
    (H : Bytes → Bytes) (t : SparseMerkleTree σ) (key : Bytes) :
    Except Unit MerkleProof :=
  match genProofLoop ops H t.store (H key) (List.range 256) t.root [] with
  | .error e => .error e
  | .ok sn => .ok ⟨sn⟩

/-- The body of verify's replay: consume (index, sibling) pairs in the given
order, combining by the path bit at each recorded index. -/
def verifyLoop (H : Bytes → Bytes) (path : Bytes) :
    List (Nat × Bytes) → Bytes → Bytes
  | [], current => current
  | (i, sibling) :: rest, current =>
    verifyLoop H path rest
      (if pathBit path i = 0 then digest_node H current sibling
       else digest_node H sibling current)

/-- MerkleProof::verify: recompute the leaf digest, replay the enumerated
side nodes from the end of the list back to the start (the source iterates
side_nodes.iter().enumerate().rev()), and compare with the claimed root. -/
def MerkleProof.verify (p : MerkleProof) (H : Bytes → Bytes)
    (root key value : Bytes) : Bool :=
  let path := H key
  let leafHash := digest_leaf H path value
  decide (verifyLoop H path p.side_nodes.enum.reverse leafHash = root)

/-- Modelled from the claim's words for comparison with the code (claim C6):
side_nodes is ordered with the deepest level at index 0, so replaying from
the deepest level means consuming index 0 first, adjacent to the leaf, and
the corresponding bit for the element at index j is the bit of the level it
claims to occupy, namely length - 1 - j. -/
def specOrderedVerify (p : MerkleProof) (H : Bytes → Bytes)
    (root key value : Bytes) : Bool :=
  let path := H key
  let n := p.side_nodes.length
  decide ((p.side_nodes.enum.foldl
    (fun cur js => if pathBit path (n - 1 - js.1) = 0
      then digest_node H cur js.2 else digest_node H js.2 cur)
    (digest_leaf H path value)) = root)

/-- The amended reading of claim C6, as a definition: verification consumes
the recorded side nodes from the end of the list (the deepest recorded
level) back to index 0 (root-adjacent), pairing the element at index i
with bit i of the path; expressed as a right fold over the enumeration. -/
def verifyEndFirst (p : MerkleProof) (H : Bytes → Bytes)
    (root key value : Bytes) : Bool :=
  let path := H key
  decide ((p.side_nodes.enum.foldr
    (fun js cur => if pathBit path js.1 = 0
      then digest_node H cur js.2 else digest_node H js.2 cur)
    (digest_leaf H path value)) = root)

/-- Descending index list n-1, n-2, ..., 0; the normal form of
(List.range n).reverse used by the update-walk proofs. -/
def countdown : Nat → List Nat
  | 0 => []
  | n + 1 => n :: countdown n

/-- One level of update's bottom-up combine: place the running digest on the
side selected by bit i of the path, with the zero value as the sibling. -/
def combineBit (H : Bytes → Bytes) (path : Bytes) (i : Nat) (cur : Bytes) : Bytes :=
  if pathBit path i = 0 then digest_node H cur zero_value
  else digest_node H zero_value cur

/-- The chain of digests produced by update along the key path: dchain m is
the digest after the m deepest levels have been combined, so dchain 0 is
the leaf digest and dchain 256 is the published root. -/
def dchain (H : Bytes → Bytes) (path leaf : Bytes) : Nat → Bytes
  | 0 => leaf
  | m + 1 => combineBit H path (256 - (m + 1)) (dchain H path leaf m)

/-- The node record update persists for the internal node dchain (m + 1):
its two children concatenated, the on-path child being dchain m. -/
def nodeChildren (H : Bytes → Bytes) (path leaf : Bytes) (m : Nat) : Bytes :=
  if pathBit path (256 - (m + 1)) = 0
  then dchain H path leaf m ++ zero_value
  else zero_value ++ dchain H path leaf m

/-- The digest obtained by replaying n levels of all-zero siblings from cur
upward, using bits n-1 down to 0: the verifier-side chain. -/
def vchain (H : Bytes → Bytes) (path : Bytes) : Nat → Bytes → Bytes
  | 0, cur => cur
  | n + 1, cur => vchain H path n (combineBit H path n cur)

/-- The idealized-hash hypotheses the positive claims assume: the hash is
collision-free (injective on byte strings), produces 32-byte digests, and
never outputs the distinguished zero value. -/
structure GoodHash (H : Bytes → Bytes) : Prop where
  inj : Function.Injective H
  len32 : ∀ d, (H d).length = 32
  nz : ∀ d, H d ≠ zero_value

/-- Little-endian base-256 digits of x, padded or truncated to n bytes. -/
def toBytesLE : Nat → Nat → Bytes
  | 0, _ => []
  | n + 1, x => x % 256 :: toBytesLE n (x / 256)

/-- A concrete, cheaply evaluable 32-byte hash used to instantiate the
generic engine in the closed counterexamples (the repository instantiates
with Sha256; the engine is generic over the hash). -/
def cheapHash (data : Bytes) : Bytes :=
  toBytesLE 32 (data.foldl (fun a b => (a * 1000003 + b + 11) % 1152921504606846976) 17)

/-- An injective encoding of byte strings into naturals, via iterated
pairing; used to build provably collision-free witness hashes. -/
def encodeL : Bytes → Nat
  | [] => 0
  | b :: t => Nat.pair b (encodeL t) + 1

/-- A provably collision-free 32-byte hash: the successor of the injective
encoding in byte 0, zeros elsewhere.  Witness instantiation only. -/
def encHash (d : Bytes) : Bytes :=
  (encodeL d + 1) :: List.replicate 31 0

/-- Distinguished 32-byte digest with top bit of byte 0 clear; byte 1 tags
it apart from encHash-style outputs. -/
def tagA : Bytes := 0 :: 1 :: List.replicate 30 0

/-- Distinguished 32-byte digest with top bit of byte 0 set. -/
def tagB : Bytes := 128 :: 1 :: List.replicate 30 0

/-- A provably collision-free 32-byte hash that routes two chosen inputs to
the distinguished digests tagA and tagB (whose path bits are concretely
computable) and everything else through the injective encoding.  Witness
instantiation only. -/
def tagHash (a b : Bytes) (d : Bytes) : Bytes :=
  if d = a then tagA else if d = b then tagB else encHash d

/-- Concrete key for the claim-C6 ordering counterexample. -/
def c6key : Bytes := List.replicate 32 9

/-- Concrete value for the claim-C6 ordering counterexample. -/
def c6value : Bytes := List.replicate 32 10

/-- A non-zero sibling digest distinguishing the two proof positions. -/
def c6sib : Bytes := 5 :: List.replicate 31 0

/-- A two-entry proof whose positions hold different digests, so the two
claimed orderings of side_nodes are observationally distinct. -/
def c6proof : MerkleProof := ⟨[zero_value, c6sib]⟩

/-- The digest the code's verify actually recomputes for c6proof: the root
that verify_proof accepts for this key, value and proof. -/
def c6root : Bytes :=
  verifyLoop cheapHash (cheapHash c6key) c6proof.side_nodes.enum.reverse
    (digest_leaf cheapHash (cheapHash c6key) c6value)

/-- A tree whose root is non-zero, holding a fresh budgeted store that will
accept exactly one more write: the first store set of the next update
succeeds and the second fails. -/
def c7tree : SparseMerkleTree (AL × Nat) := ⟨7 :: List.replicate 31 0, ([], 1)⟩

/-- Concrete key for the claim-C7 aborted-update counterexample. -/
def c7key : Bytes := List.replicate 32 3

/-- Concrete value for the claim-C7 aborted-update counterexample. -/
def c7value : Bytes := List.replicate 32 4

/-- Concrete 32-byte key used by the multi-key witnesses. -/
def w1key : Bytes := List.replicate 32 1

/-- Concrete 32-byte value used by the multi-key witnesses. -/
def w1val : Bytes := List.replicate 32 2

/-- Second concrete 32-byte key used by the multi-key witnesses. -/
def w2key : Bytes := List.replicate 32 3

/-- Second concrete 32-byte value used by the multi-key witnesses. -/
def w2val : Bytes := List.replicate 32 4

/-- The collision-free witness hash routing the two witness keys to the
distinguished digests whose root-level path bits differ. -/
def wtag : Bytes → Bytes := tagHash w1key w2key

/-- A state-mutating engine operation, for quantifying over usage
histories of the tree: an update carrying its key and value, or a remove
carrying its key. -/
inductive TreeOp where
  | upd : Bytes → Bytes → TreeOp
  | rem : Bytes → TreeOp

/-- Run a list of mutating operations left to right on the simple
in-memory store, the way a caller of the engine would. -/
def runOps (H : Bytes → Bytes) : SparseMerkleTree AL → List TreeOp → SparseMerkleTree AL
  | t, [] => t
  | t, .upd k v :: rest => runOps H (SparseMerkleTree.update simpleKV H t k v).1 rest
  | t, .rem k :: rest => runOps H (SparseMerkleTree.remove simpleKV H t k).1 rest

/-- An operation's key has the 32-byte length of the source key type. -/
def opKeyOk : TreeOp → Bool
  | .upd k _ => decide (k.length = 32)
  | .rem _ => true

/-- Decidable equality for Except results. -/
def exceptDecEq {e a : Type} [DecidableEq e] [DecidableEq a] :
    DecidableEq (Except e a)
  | .ok x, .ok y =>
    if h : x = y then .isTrue (by rw [h])
    else .isFalse (by intro hc; cases hc; exact h rfl)
  | .error x, .error y =>
    if h : x = y then .isTrue (by rw [h])
    else .isFalse (by intro hc; cases hc; exact h rfl)
  | .ok _, .error _ => .isFalse (by intro hc; cases hc)
  | .error _, .ok _ => .isFalse (by intro hc; cases hc)

instance {e a : Type} [DecidableEq e] [DecidableEq a] : DecidableEq (Except e a) :=
  exceptDecEq

/-- Decidable equality for proofs, via their side-node lists. -/
def merkleProofDecEq : DecidableEq MerkleProof
  | ⟨xs⟩, ⟨ys⟩ =>
    if h : xs = ys then .isTrue (by rw [h])
    else .isFalse (by intro hc; cases hc; exact h rfl)

instance : DecidableEq MerkleProof := merkleProofDecEq

/-! Basic store lemmas. -/

theorem alGet_alSet_same (s : AL) (k v : Bytes) : alGet (alSet s k v) k = some v := by
  induction s with
  | nil => simp [alSet, alGet]
  | cons h t ih =>
    obtain ⟨k', v'⟩ := h
    by_cases hk : k' = k
    · subst hk; simp [alSet, alGet]
    · simp [alSet, alGet, hk, ih]

theorem alGet_alSet_ne (s : AL) (k q v : Bytes) (hq : q ≠ k) :
    alGet (alSet s k v) q = alGet s q := by
  have hkq : ¬ k = q := fun h => hq h.symm
  induction s with
  | nil => simp [alSet, alGet, hkq]
  | cons hd t ih =>
    obtain ⟨k', v'⟩ := hd
    by_cases hk : k' = k
    · subst hk; simp [alSet, alGet, hkq]
    · by_cases hq' : k' = q
      · subst hq'; simp [alSet, alGet, hk]
      · simp [alSet, alGet, hk, hq', ih]

theorem revRange_countdown : ∀ n : Nat, (List.range n).reverse = countdown n := by
  intro n
  induction n with
  | zero => rfl
  | succ m ih => rw [List.range_succ, List.reverse_append, ih]; rfl

theorem revRange256_eq : revRange256 = countdown 256 := by
  rw [revRange256, revRange_countdown]

/-! Lemmas about the update walk over the infallible store. -/

theorem updateLoop_simple_fst (H : Bytes → Bytes) (path : Bytes) :
    ∀ (is : List Nat) (cur : Bytes) (s1 s2 : AL),
      (updateLoop simpleKV H path is cur s1).1 = (updateLoop simpleKV H path is cur s2).1 := by
  intro is
  induction is with
  | nil => intro cur s1 s2; rfl
  | cons i rest ih => intro cur s1 s2; exact ih _ _ _

theorem updateLoop_simple_ok (H : Bytes → Bytes) (path : Bytes) :
    ∀ (is : List Nat) (cur : Bytes) (s : AL),
      (updateLoop simpleKV H path is cur s).2.2 = .ok () := by
  intro is
  induction is with
  | nil => intro cur s; rfl
  | cons i rest ih => intro cur s; exact ih _ _

/-! Replay-order lemmas for claim C6. -/

theorem verifyLoop_append (H : Bytes → Bytes) (path : Bytes) :
    ∀ (A B : List (Nat × Bytes)) (cur : Bytes),
      verifyLoop H path (A ++ B) cur = verifyLoop H path B (verifyLoop H path A cur) := by
  intro A
  induction A with
  | nil => intro B cur; rfl
  | cons h t ih =>
    intro B cur
    obtain ⟨i, sib⟩ := h
    simp only [List.cons_append, verifyLoop]
    exact ih _ _

theorem verifyLoop_reverse_foldr (H : Bytes → Bytes) (path : Bytes) :
    ∀ (L : List (Nat × Bytes)) (cur : Bytes),
      verifyLoop H path L.reverse cur =
        L.foldr (fun js c => if pathBit path js.1 = 0
          then digest_node H c js.2 else digest_node H js.2 c) cur := by
  intro L
  induction L with
  | nil => intro cur; rfl
  | cons h t ih =>
    intro cur
    obtain ⟨i, sib⟩ := h
    simp only [List.reverse_cons, List.foldr_cons, verifyLoop_append, verifyLoop]
    rw [ih]

theorem simpleKV_get (s : AL) (k : Bytes) : simpleKV.get s k = .ok (alGet s k) := rfl

theorem simpleKV_set (s : AL) (k v : Bytes) : simpleKV.set s k v = (alSet s k v, .ok ()) := rfl

theorem simpleKV_remove (s : AL) (k : Bytes) : simpleKV.remove s k = (alRemove s k, .ok ()) := rfl

theorem update_simple_eq (H : Bytes → Bytes) (t : SparseMerkleTree AL) (key value : Bytes) :
    SparseMerkleTree.update simpleKV H t key value =
      (⟨(updateLoop simpleKV H (H key) revRange256 (digest_leaf H (H key) value)
           (alSet (alSet t.store (H key) value) (digest_leaf H (H key) value)
             (zero_value ++ zero_value))).1,
        (updateLoop simpleKV H (H key) revRange256 (digest_leaf H (H key) value)
           (alSet (alSet t.store (H key) value) (digest_leaf H (H key) value)
             (zero_value ++ zero_value))).2.1⟩, .ok ()) := by
  have hok := updateLoop_simple_ok H (H key) revRange256 (digest_leaf H (H key) value)
    (alSet (alSet t.store (H key) value) (digest_leaf H (H key) value)
      (zero_value ++ zero_value))
  rcases hu : updateLoop simpleKV H (H key) revRange256 (digest_leaf H (H key) value)
    (alSet (alSet t.store (H key) value) (digest_leaf H (H key) value)
      (zero_value ++ zero_value)) with ⟨c, s3, r⟩
  rw [hu] at hok
  simp only at hok
  subst hok
  simp only [SparseMerkleTree.update, simpleKV_set, hu]

theorem update_simple_root (H : Bytes → Bytes) (t : SparseMerkleTree AL)
    (key value : Bytes) :
    (SparseMerkleTree.update simpleKV H t key value).1.root =
      (updateLoop simpleKV H (H key) revRange256 (digest_leaf H (H key) value)
        (alSet (alSet t.store (H key) value) (digest_leaf H (H key) value)
          (zero_value ++ zero_value))).1 := by
  rw [update_simple_eq]

theorem update_simple_store (H : Bytes → Bytes) (t : SparseMerkleTree AL)
    (key value : Bytes) :
    (SparseMerkleTree.update simpleKV H t key value).1.store =
      (updateLoop simpleKV H (H key) revRange256 (digest_leaf H (H key) value)
        (alSet (alSet t.store (H key) value) (digest_leaf H (H key) value)
          (zero_value ++ zero_value))).2.1 := by
  rw [update_simple_eq]

/-- C9: a freshly constructed tree has the all-zero empty digest as root,
and get returns none for every key, over any store and any hash. -/
theorem smt_c9_new_tree_empty (σ : Type) (ops : KVStore σ) (H : Bytes → Bytes)
    (s : σ) (key : Bytes) :
    (SparseMerkleTree.new s).root = zero_value ∧
    SparseMerkleTree.get ops H (SparseMerkleTree.new s) key = .ok none := by
  exact ⟨rfl, rfl⟩

set_option maxRecDepth 4000 in
/-- C10: the root published by update is a function of the updated key and
value alone; any two trees, whatever their stores and previous roots, end
with the same root after the same update.  This confirms the implicit
claim read off the code: the walk always combines with the zero-value
sibling and never consults the store for the root computation. -/
theorem smt_c10_root_last_update_only (H : Bytes → Bytes)
    (t1 t2 : SparseMerkleTree AL) (key value : Bytes) :
    (SparseMerkleTree.update simpleKV H t1 key value).1.root =
    (SparseMerkleTree.update simpleKV H t2 key value).1.root := by
  rw [update_simple_eq, update_simple_eq]
  exact updateLoop_simple_fst H (H key) revRange256 (digest_leaf H (H key) value)
    (alSet (alSet t1.store (H key) value) (digest_leaf H (H key) value)
      (zero_value ++ zero_value))
    (alSet (alSet t2.store (H key) value) (digest_leaf H (H key) value)
      (zero_value ++ zero_value))

/-- C3: remove never recomputes the path; it resets the root to the zero
value unconditionally, after which get answers none for every key, so all
other keys are discarded from the authenticated structure.  This refutes
the claim that remove propagates an empty-leaf substitution upward. -/
theorem smt_c3_remove_resets_root (H : Bytes → Bytes) (t : SparseMerkleTree AL)
    (key k' : Bytes) :
    (SparseMerkleTree.remove simpleKV H t key).1.root = zero_value ∧
    SparseMerkleTree.get simpleKV H (SparseMerkleTree.remove simpleKV H t key).1 k' =
      .ok none := by
  exact ⟨rfl, rfl⟩

/-- C6 (amended): verify_proof replays side_nodes from the end of the list
back to the start, pairing the element at index i with bit i of the hashed
key path, as the right-fold formulation states; so index 0 is the
root-adjacent sibling and the last index the deepest recorded one. -/
theorem smt_c6_replay_end_first (p : MerkleProof) (H : Bytes → Bytes)
    (root key value : Bytes) :
    p.verify H root key value = verifyEndFirst p H root key value := by
  simp only [MerkleProof.verify, verifyEndFirst, verifyLoop_reverse_foldr]

set_option maxRecDepth 100000 in
/-- C6 (counterexample): at a concrete key, value, two-element proof and
root, the code's verify_proof accepts while the claim's reading of the
ordering (deepest level at index 0, each element paired with the bit of
the level it claims to occupy) recomputes a different digest and rejects;
so side_nodes is not ordered deepest-first as the claim states. -/
theorem smt_c6_order_counterexample :
    c6proof.verify cheapHash c6root c6key c6value = true ∧
    specOrderedVerify c6proof cheapHash c6root c6key c6value = false := by
  exact ⟨by decide, by decide⟩

set_option maxRecDepth 100000 in
/-- C7 (counterexample): on a tree with a non-zero root and a store that
accepts exactly one more write, update fails with a store error, yet the
externally observable state has changed: get on the updated key answered
none before the failed update and answers the new value afterwards,
because the flat key-to-value write preceded the failing write. -/
theorem smt_c7_partial_write_observable :
    (SparseMerkleTree.update budgetKV cheapHash c7tree c7key c7value).2 = .error () ∧
    SparseMerkleTree.get budgetKV cheapHash c7tree c7key = .ok none ∧
    SparseMerkleTree.get budgetKV cheapHash
      (SparseMerkleTree.update budgetKV cheapHash c7tree c7key c7value).1 c7key =
      .ok (some c7value) := by
  exact ⟨by decide, by decide, by decide⟩

/-! Witness hashes: provable collision-freedom. -/

theorem encodeL_injective : Function.Injective encodeL := by
  intro a
  induction a with
  | nil =>
    intro b h
    cases b with
    | nil => rfl
    | cons y u => simp [encodeL] at h
  | cons x t ih =>
    intro b h
    cases b with
    | nil => simp [encodeL] at h
    | cons y u =>
      simp only [encodeL, Nat.add_right_cancel_iff] at h
      obtain ⟨h1, h2⟩ := Nat.pair_eq_pair.mp h
      rw [h1, ih h2]

theorem encHash_length (d : Bytes) : (encHash d).length = 32 := by
  simp [encHash]

theorem encHash_nz (d : Bytes) : encHash d ≠ zero_value := by
  intro h
  have hz : zero_value = 0 :: List.replicate 31 0 := rfl
  rw [encHash, hz] at h
  injection h with h1 _
  exact Nat.succ_ne_zero _ h1

theorem goodHash_encHash : GoodHash encHash := by
  refine ⟨?_, encHash_length, encHash_nz⟩
  intro a b h
  rw [encHash, encHash] at h
  injection h with h1 _
  exact encodeL_injective (Nat.succ_injective h1)

theorem encHash_ne_tagA (d : Bytes) : encHash d ≠ tagA := by
  intro h
  have h31 : List.replicate 31 (0 : Nat) = 0 :: List.replicate 30 0 := rfl
  rw [encHash, tagA, h31] at h
  injection h with _ h2
  injection h2 with h3 _
  exact absurd h3 (by decide)

theorem encHash_ne_tagB (d : Bytes) : encHash d ≠ tagB := by
  intro h
  have h31 : List.replicate 31 (0 : Nat) = 0 :: List.replicate 30 0 := rfl
  rw [encHash, tagB, h31] at h
  injection h with _ h2
  injection h2 with h3 _
  exact absurd h3 (by decide)

theorem goodHash_tagHash (a b : Bytes) (hab : a ≠ b) : GoodHash (tagHash a b) := by
  have hout : ∀ x, (x = a ∧ tagHash a b x = tagA) ∨ (x ≠ a ∧ x = b ∧ tagHash a b x = tagB) ∨
      (x ≠ a ∧ x ≠ b ∧ tagHash a b x = encHash x) := by
    intro x
    by_cases h1 : x = a
    · exact Or.inl ⟨h1, by simp [tagHash, h1]⟩
    · by_cases h2 : x = b
      · exact Or.inr (Or.inl ⟨h1, h2, by simp [tagHash, h1, h2, Ne.symm hab]⟩)
      · exact Or.inr (Or.inr ⟨h1, h2, by simp [tagHash, h1, h2]⟩)
  refine ⟨?_, ?_, ?_⟩
  · intro x y h
    rcases hout x with ⟨hx, ex⟩ | ⟨_, hx, ex⟩ | ⟨hxa, hxb, ex⟩ <;>
      rcases hout y with ⟨hy, ey⟩ | ⟨_, hy, ey⟩ | ⟨hya, hyb, ey⟩
    · rw [hx, hy]
    · rw [ex, ey] at h; exact absurd h (by decide)
    · rw [ex, ey] at h; exact absurd h.symm (encHash_ne_tagA _)
    · rw [ex, ey] at h; exact absurd h (by decide)
    · rw [hx, hy]
    · rw [ex, ey] at h; exact absurd h.symm (encHash_ne_tagB _)
    · rw [ex, ey] at h; exact absurd h (encHash_ne_tagA _)
    · rw [ex, ey] at h; exact absurd h (encHash_ne_tagB _)
    · rw [ex, ey, encHash, encHash] at h
      injection h with h1 _
      exact encodeL_injective (Nat.succ_injective h1)
  · intro d
    rcases hout d with ⟨_, e⟩ | ⟨_, _, e⟩ | ⟨_, _, e⟩ <;> rw [e]
    · decide
    · decide
    · exact encHash_length d
  · intro d
    rcases hout d with ⟨_, e⟩ | ⟨_, _, e⟩ | ⟨_, _, e⟩ <;> rw [e]
    · decide
    · decide
    · exact encHash_nz d

/-! Chain lemmas for the update walk. -/

theorem zero_value_length : zero_value.length = 32 := by simp [zero_value]

theorem digest_node_inj {H : Bytes → Bytes} (hg : GoodHash H) {l r l' r' : Bytes}
    (hl : l.length = l'.length) (h : digest_node H l r = digest_node H l' r') :
    l = l' ∧ r = r' := by
  unfold digest_node at h
  have h2 := hg.inj h
  injection h2 with _ h3
  exact List.append_inj h3 hl

theorem combineBit_length {H : Bytes → Bytes} (hg : GoodHash H)
    (path : Bytes) (i : Nat) (cur : Bytes) : (combineBit H path i cur).length = 32 := by
  unfold combineBit
  by_cases hb : pathBit path i = 0 <;> simp [hb, digest_node, hg.len32]

theorem combineBit_nz {H : Bytes → Bytes} (hg : GoodHash H)
    (path : Bytes) (i : Nat) (cur : Bytes) : combineBit H path i cur ≠ zero_value := by
  unfold combineBit
  by_cases hb : pathBit path i = 0 <;> simp [hb, digest_node] <;> exact hg.nz _

theorem dchain_length {H : Bytes → Bytes} (hg : GoodHash H) {path leaf : Bytes}
    (hlen : leaf.length = 32) : ∀ m, (dchain H path leaf m).length = 32
  | 0 => hlen
  | m + 1 => combineBit_length hg path (256 - (m + 1)) (dchain H path leaf m)

theorem dchain_nz {H : Bytes → Bytes} (hg : GoodHash H) {path leaf : Bytes}
    (hnz : leaf ≠ zero_value) : ∀ m, dchain H path leaf m ≠ zero_value
  | 0 => hnz
  | m + 1 => combineBit_nz hg path (256 - (m + 1)) (dchain H path leaf m)

theorem dchain_zero_ne_succ {H : Bytes → Bytes} (hg : GoodHash H) {path leaf : Bytes}
    (hleaf : ∃ w, leaf = H (0 :: w)) (j : Nat) :
    leaf ≠ dchain H path leaf (j + 1) := by
  obtain ⟨w, hw⟩ := hleaf
  intro h
  have hx : dchain H path leaf (j + 1) =
      combineBit H path (256 - (j + 1)) (dchain H path leaf j) := rfl
  rw [hx] at h
  unfold combineBit at h
  by_cases hb : pathBit path (256 - (j + 1)) = 0
  · rw [if_pos hb, hw] at h
    have := hg.inj h
    injection this with h0 _
    exact absurd h0 (by decide)
  · rw [if_neg hb, hw] at h
    have := hg.inj h
    injection this with h0 _
    exact absurd h0 (by decide)

theorem dchain_index_inj {H : Bytes → Bytes} (hg : GoodHash H) {path leaf : Bytes}
    (hlen : leaf.length = 32) (hnz : leaf ≠ zero_value) (hleaf : ∃ w, leaf = H (0 :: w)) :
    ∀ m j, dchain H path leaf m = dchain H path leaf j → m = j := by
  intro m
  induction m with
  | zero =>
    intro j h
    cases j with
    | zero => rfl
    | succ j' => exact absurd h (dchain_zero_ne_succ hg hleaf j')
  | succ m' ih =>
    intro j h
    cases j with
    | zero => exact absurd h.symm (dchain_zero_ne_succ hg hleaf m')
    | succ j' =>
      have hm : dchain H path leaf (m' + 1) =
          combineBit H path (256 - (m' + 1)) (dchain H path leaf m') := rfl
      have hj : dchain H path leaf (j' + 1) =
          combineBit H path (256 - (j' + 1)) (dchain H path leaf j') := rfl
      rw [hm, hj] at h
      unfold combineBit at h
      by_cases hbm : pathBit path (256 - (m' + 1)) = 0 <;>
        by_cases hbj : pathBit path (256 - (j' + 1)) = 0
      · rw [if_pos hbm, if_pos hbj] at h
        have := (digest_node_inj hg (by rw [dchain_length hg hlen, dchain_length hg hlen]) h).1
        rw [ih j' this]
      · rw [if_pos hbm, if_neg hbj] at h
        have := (digest_node_inj hg (by rw [dchain_length hg hlen, zero_value_length]) h).1
        exact absurd this (dchain_nz hg hnz m')
      · rw [if_neg hbm, if_pos hbj] at h
        have := (digest_node_inj hg (by rw [zero_value_length, dchain_length hg hlen]) h).1
        exact absurd this.symm (dchain_nz hg hnz j')
      · rw [if_neg hbm, if_neg hbj] at h
        have := (digest_node_inj hg rfl h).2
        rw [ih j' this]

theorem vchain_dchain {H : Bytes → Bytes} (path leaf : Bytes) :
    ∀ n, n ≤ 256 →
      vchain H path n (dchain H path leaf (256 - n)) = dchain H path leaf 256 := by
  intro n
  induction n with
  | zero => intro _; rfl
  | succ k ih =>
    intro hk
    have h1 : 256 - k = (256 - (k + 1)) + 1 := by omega
    have h2 : 256 - ((256 - (k + 1)) + 1) = k := by omega
    show vchain H path k (combineBit H path k (dchain H path leaf (256 - (k + 1)))) = _
    have hc : combineBit H path k (dchain H path leaf (256 - (k + 1))) =
        dchain H path leaf (256 - k) := by
      rw [h1]
      show combineBit H path k _ =
        combineBit H path (256 - ((256 - (k + 1)) + 1)) (dchain H path leaf (256 - (k + 1)))
      rw [h2]
    rw [hc]
    exact ih (by omega)

theorem vchain_inj {H : Bytes → Bytes} (hg : GoodHash H) (path : Bytes) :
    ∀ (n : Nat) (x y : Bytes), x.length = 32 → y.length = 32 →
      vchain H path n x = vchain H path n y → x = y := by
  intro n
  induction n with
  | zero => intro x y _ _ h; exact h
  | succ k ih =>
    intro x y hx hy h
    have h2 := ih _ _ (combineBit_length hg path k x) (combineBit_length hg path k y) h
    unfold combineBit at h2
    by_cases hb : pathBit path k = 0
    · rw [if_pos hb, if_pos hb] at h2
      exact (digest_node_inj hg (by rw [hx, hy]) h2).1
    · rw [if_neg hb, if_neg hb] at h2
      exact (digest_node_inj hg rfl h2).2

/-! Store contents after the update walk. -/

theorem updateLoop_simple_cons (H : Bytes → Bytes) (path : Bytes) (i : Nat)
    (rest : List Nat) (cur : Bytes) (s : AL) :
    updateLoop simpleKV H path (i :: rest) cur s =
      updateLoop simpleKV H path rest (combineBit H path i cur)
        (alSet s (combineBit H path i cur)
          (if pathBit path i = 0 then cur ++ zero_value else zero_value ++ cur)) := by
  by_cases hb : pathBit path i = 0 <;> simp [updateLoop, simpleKV, combineBit, hb]

theorem combineBit_dchain_step (H : Bytes → Bytes) (path leaf : Bytes) (k : Nat)
    (hk : k + 1 ≤ 256) :
    combineBit H path k (dchain H path leaf (256 - (k + 1))) =
      dchain H path leaf (256 - k) := by
  have e1 : 256 - k = (256 - (k + 1)) + 1 := by omega
  have e2 : 256 - ((256 - (k + 1)) + 1) = k := by omega
  rw [e1]
  show combineBit H path k _ =
    combineBit H path (256 - ((256 - (k + 1)) + 1)) (dchain H path leaf (256 - (k + 1)))
  rw [e2]

theorem updateLoop_countdown_fst (H : Bytes → Bytes) (path leaf : Bytes) :
    ∀ n, n ≤ 256 → ∀ s : AL,
      (updateLoop simpleKV H path (countdown n) (dchain H path leaf (256 - n)) s).1 =
        dchain H path leaf 256 := by
  intro n
  induction n with
  | zero => intro _ s; rfl
  | succ k ih =>
    intro hk s
    rw [show countdown (k + 1) = k :: countdown k from rfl, updateLoop_simple_cons,
      combineBit_dchain_step H path leaf k hk]
    exact ih (by omega) _

theorem updateLoop_countdown_store_other (H : Bytes → Bytes) (path leaf q : Bytes) :
    ∀ n, n ≤ 256 → (∀ m, 256 - n < m → m ≤ 256 → q ≠ dchain H path leaf m) →
      ∀ s : AL,
        alGet (updateLoop simpleKV H path (countdown n) (dchain H path leaf (256 - n)) s).2.1 q =
          alGet s q := by
  intro n
  induction n with
  | zero => intro _ _ s; rfl
  | succ k ih =>
    intro hk hq s
    rw [show countdown (k + 1) = k :: countdown k from rfl, updateLoop_simple_cons,
      combineBit_dchain_step H path leaf k hk]
    rw [ih (by omega) (fun m hm1 hm2 => hq m (by omega) hm2) _]
    exact alGet_alSet_ne _ _ _ _ (hq (256 - k) (by omega) (by omega))

theorem updateLoop_countdown_store_node {H : Bytes → Bytes} (hg : GoodHash H)
    {path leaf : Bytes} (hlen : leaf.length = 32) (hnz : leaf ≠ zero_value)
    (hleaf : ∃ w, leaf = H (0 :: w)) :
    ∀ n, n ≤ 256 → ∀ s : AL, ∀ m, 256 - n ≤ m → m + 1 ≤ 256 →
      alGet (updateLoop simpleKV H path (countdown n) (dchain H path leaf (256 - n)) s).2.1
          (dchain H path leaf (m + 1)) =
        some (nodeChildren H path leaf m) := by
  intro n
  induction n with
  | zero => intro _ s m hm1 hm2; exact absurd hm1 (by omega)
  | succ k ih =>
    intro hk s m hm1 hm2
    rw [show countdown (k + 1) = k :: countdown k from rfl, updateLoop_simple_cons,
      combineBit_dchain_step H path leaf k hk]
    by_cases hcase : m + 1 = 256 - k
    · rw [updateLoop_countdown_store_other H path leaf _ k (by omega)
        (fun j hj1 hj2 hqe => by
          have := dchain_index_inj hg hlen hnz hleaf _ _ hqe
          omega) _]
      have e3 : 256 - (k + 1) = m := by omega
      have e4 : 256 - (m + 1) = k := by omega
      rw [← hcase] at *
      have hcontent : (if pathBit path k = 0
          then dchain H path leaf (256 - (k + 1)) ++ zero_value
          else zero_value ++ dchain H path leaf (256 - (k + 1))) =
          nodeChildren H path leaf m := by
        rw [nodeChildren, e3, e4]
      rw [hcontent, hcase]
      exact alGet_alSet_same _ _ _
    · exact ih (by omega) _ m (by omega) hm2

theorem dchain_succ_form {H : Bytes → Bytes} (hg : GoodHash H) {path leaf : Bytes}
    (hlen : leaf.length = 32) (j : Nat) :
    ∃ l r : Bytes, l.length = 32 ∧ r.length = 32 ∧
      dchain H path leaf (j + 1) = digest_node H l r := by
  have hx : dchain H path leaf (j + 1) =
      combineBit H path (256 - (j + 1)) (dchain H path leaf j) := rfl
  rw [hx]
  unfold combineBit
  by_cases hb : pathBit path (256 - (j + 1)) = 0
  · rw [if_pos hb]
    exact ⟨_, _, dchain_length hg hlen j, zero_value_length, rfl⟩
  · rw [if_neg hb]
    exact ⟨_, _, zero_value_length, dchain_length hg hlen j, rfl⟩

theorem hashkey_ne_dchain_succ {H : Bytes → Bytes} (hg : GoodHash H)
    {key path leaf : Bytes} (hkey : key.length = 32) (hlen : leaf.length = 32)
    (j : Nat) : H key ≠ dchain H path leaf (j + 1) := by
  obtain ⟨l, r, hl, hr, he⟩ := dchain_succ_form hg hlen j
  rw [he]
  intro h
  unfold digest_node at h
  have h3 := congrArg List.length (hg.inj h)
  simp only [List.length_cons, List.length_append, hl, hr, hkey] at h3
  omega

theorem hashkey_ne_digest_leaf {H : Bytes → Bytes} (hg : GoodHash H)
    {k' path value : Bytes} (hk' : k'.length = 32) (hpath : path.length = 32) :
    H k' ≠ digest_leaf H path value := by
  intro h
  unfold digest_leaf at h
  have h3 := congrArg List.length (hg.inj h)
  simp only [List.length_cons, List.length_append, hk', hpath] at h3
  omega

theorem dchain_full_start (H : Bytes → Bytes) (path leaf : Bytes) :
    dchain H path leaf (256 - 256) = leaf := rfl

theorem updateLoop_full_fst (H : Bytes → Bytes) (path leaf : Bytes) (s : AL) :
    (updateLoop simpleKV H path (countdown 256) leaf s).1 = dchain H path leaf 256 := by
  have h := updateLoop_countdown_fst H path leaf 256 (by omega) s
  rw [dchain_full_start] at h
  exact h

theorem updateLoop_full_store_other (H : Bytes → Bytes) (path leaf q : Bytes)
    (hq : ∀ m, 0 < m → m ≤ 256 → q ≠ dchain H path leaf m) (s : AL) :
    alGet (updateLoop simpleKV H path (countdown 256) leaf s).2.1 q = alGet s q := by
  have h := updateLoop_countdown_store_other H path leaf q 256 (by omega)
    (fun m hm1 hm2 => hq m (by omega) hm2) s
  rw [dchain_full_start] at h
  exact h

theorem updateLoop_full_store_node {H : Bytes → Bytes} (hg : GoodHash H)
    {path leaf : Bytes} (hlen : leaf.length = 32) (hnz : leaf ≠ zero_value)
    (hleaf : ∃ w, leaf = H (0 :: w)) (m : Nat) (hm : m + 1 ≤ 256) (s : AL) :
    alGet (updateLoop simpleKV H path (countdown 256) leaf s).2.1
        (dchain H path leaf (m + 1)) = some (nodeChildren H path leaf m) := by
  have h := @updateLoop_countdown_store_node H hg path leaf hlen hnz hleaf 256
    (by omega) s m (by omega) hm
  rw [dchain_full_start] at h
  exact h

theorem update_root_chain (H : Bytes → Bytes) (t : SparseMerkleTree AL)
    (key value : Bytes) :
    (SparseMerkleTree.update simpleKV H t key value).1.root =
      dchain H (H key) (digest_leaf H (H key) value) 256 := by
  rw [update_simple_root, revRange256_eq]
  exact updateLoop_full_fst H (H key) (digest_leaf H (H key) value)
    (alSet (alSet t.store (H key) value) (digest_leaf H (H key) value)
      (zero_value ++ zero_value))

theorem update_root_nz {H : Bytes → Bytes} (hg : GoodHash H)
    (t : SparseMerkleTree AL) (key value : Bytes) :
    (SparseMerkleTree.update simpleKV H t key value).1.root ≠ zero_value := by
  rw [update_root_chain]
  exact dchain_nz hg (hg.nz _) 256

theorem update_store_node {H : Bytes → Bytes} (hg : GoodHash H)
    (t : SparseMerkleTree AL) (key value : Bytes) (m : Nat) (hm : m + 1 ≤ 256) :
    alGet (SparseMerkleTree.update simpleKV H t key value).1.store
        (dchain H (H key) (digest_leaf H (H key) value) (m + 1)) =
      some (nodeChildren H (H key) (digest_leaf H (H key) value) m) := by
  rw [update_simple_store, revRange256_eq]
  exact @updateLoop_full_store_node H hg (H key) (digest_leaf H (H key) value)
    (hg.len32 _) (hg.nz _) ⟨H key ++ value, rfl⟩ m hm
    (alSet (alSet t.store (H key) value) (digest_leaf H (H key) value)
      (zero_value ++ zero_value))

theorem update_store_path {H : Bytes → Bytes} (hg : GoodHash H)
    (t : SparseMerkleTree AL) (key value : Bytes) (hkey : key.length = 32) :
    alGet (SparseMerkleTree.update simpleKV H t key value).1.store (H key) =
      some value := by
  rw [update_simple_store, revRange256_eq]
  rw [updateLoop_full_store_other H (H key) (digest_leaf H (H key) value)
    (H key) (fun m hm1 hm2 => by
      cases m with
      | zero => omega
      | succ j => exact hashkey_ne_dchain_succ hg hkey (hg.len32 _) j) _]
  rw [alGet_alSet_ne _ _ _ _ (hashkey_ne_digest_leaf hg hkey (hg.len32 key))]
  exact alGet_alSet_same _ _ _

theorem update_store_preserve {H : Bytes → Bytes} (hg : GoodHash H)
    (t : SparseMerkleTree AL) (key value k' : Bytes) (hk' : k'.length = 32)
    (hne : k' ≠ key) :
    alGet (SparseMerkleTree.update simpleKV H t key value).1.store (H k') =
      alGet t.store (H k') := by
  rw [update_simple_store, revRange256_eq]
  rw [updateLoop_full_store_other H (H key) (digest_leaf H (H key) value)
    (H k') (fun m hm1 hm2 => by
      cases m with
      | zero => omega
      | succ j => exact hashkey_ne_dchain_succ hg hk' (hg.len32 _) j) _]
  rw [alGet_alSet_ne _ _ _ _ (hashkey_ne_digest_leaf hg hk' (hg.len32 key))]
  exact alGet_alSet_ne _ _ _ _ (fun h => hne (hg.inj h))

/-- C8: immediately after a successful update of a 32-byte key on any prior
tree state, get returns the value just written, assuming the hash is
collision-free, 32-byte and never the zero value. -/
theorem smt_c8_update_get_roundtrip {H : Bytes → Bytes} (hg : GoodHash H)
    (t : SparseMerkleTree AL) (key value : Bytes) (hkey : key.length = 32) :
    SparseMerkleTree.get simpleKV H
      (SparseMerkleTree.update simpleKV H t key value).1 key = .ok (some value) := by
  unfold SparseMerkleTree.get
  rw [if_neg (update_root_nz hg t key value), simpleKV_get,
    update_store_path hg t key value hkey]

/-- C8 witness: the round-trip theorem applied at the collision-free witness
hash, an empty tree, and concrete 32-byte key and value. -/
theorem smt_c8_update_get_roundtrip_witness :
    GoodHash encHash ∧ (List.replicate 32 1 : Bytes).length = 32 ∧
    SparseMerkleTree.get simpleKV encHash
      (SparseMerkleTree.update simpleKV encHash (SparseMerkleTree.new ([] : AL))
        (List.replicate 32 1) (List.replicate 32 2)).1 (List.replicate 32 1) =
      .ok (some (List.replicate 32 2)) :=
  ⟨goodHash_encHash, by decide,
    smt_c8_update_get_roundtrip goodHash_encHash (SparseMerkleTree.new ([] : AL))
      (List.replicate 32 1) (List.replicate 32 2) (by decide)⟩

/-- C2: the node record that update persists for the published root always
carries the zero value as the off-path half, whatever previously occupied
that sibling position in the tree: the walk substitutes the empty-subtree
digest at every level and never reads the stored occupant back.  The
on-path child is a non-zero digest, so the two halves are observably
distinct. -/
theorem smt_c2_sibling_always_zero {H : Bytes → Bytes} (hg : GoodHash H)
    (t : SparseMerkleTree AL) (key value : Bytes) :
    alGet (SparseMerkleTree.update simpleKV H t key value).1.store
        (SparseMerkleTree.update simpleKV H t key value).1.root =
      some (nodeChildren H (H key) (digest_leaf H (H key) value) 255) ∧
    dchain H (H key) (digest_leaf H (H key) value) 255 ≠ zero_value := by
  constructor
  · rw [update_root_chain]
    exact update_store_node hg t key value 255 (by omega)
  · exact dchain_nz hg (hg.nz _) 255

/-- C2 witness: the zero-sibling theorem applied at the collision-free
witness hash, an empty tree, and concrete key and value. -/
theorem smt_c2_sibling_always_zero_witness :
    GoodHash encHash ∧
    (alGet (SparseMerkleTree.update simpleKV encHash (SparseMerkleTree.new ([] : AL))
        (List.replicate 32 1) (List.replicate 32 2)).1.store
        (SparseMerkleTree.update simpleKV encHash (SparseMerkleTree.new ([] : AL))
          (List.replicate 32 1) (List.replicate 32 2)).1.root =
      some (nodeChildren encHash (encHash (List.replicate 32 1))
        (digest_leaf encHash (encHash (List.replicate 32 1)) (List.replicate 32 2)) 255) ∧
    dchain encHash (encHash (List.replicate 32 1))
      (digest_leaf encHash (encHash (List.replicate 32 1)) (List.replicate 32 2)) 255 ≠
        zero_value) :=
  ⟨goodHash_encHash,
    smt_c2_sibling_always_zero goodHash_encHash (SparseMerkleTree.new ([] : AL))
      (List.replicate 32 1) (List.replicate 32 2)⟩

/-! The proof walk after an update, and verification of its output. -/

theorem genProofLoop_zero_current {σ : Type} (ops : KVStore σ) (H : Bytes → Bytes)
    (s : σ) (path : Bytes) (is : List Nat) (acc : List Bytes) :
    genProofLoop ops H s path is zero_value acc = .ok acc := by
  cases is with
  | nil => rfl
  | cons i rest => simp [genProofLoop]

theorem genProofLoop_simple_cons (H : Bytes → Bytes) (s : AL) (path : Bytes)
    (i : Nat) (rest : List Nat) (current : Bytes) (acc : List Bytes)
    (hcz : current ≠ zero_value) (l r : Bytes) (hget : alGet s current = some (l ++ r))
    (hl : l.length = 32) (hr : r.length = 32) :
    genProofLoop simpleKV H s path (i :: rest) current acc =
      if pathBit path i = 0 then genProofLoop simpleKV H s path rest l (acc ++ [r])
      else genProofLoop simpleKV H s path rest r (acc ++ [l]) := by
  have hlen : (l ++ r).length / 2 = 32 := by
    rw [List.length_append, hl, hr]
  have htake : (l ++ r).take ((l ++ r).length / 2) = l := by
    rw [hlen, ← hl, List.take_left]
  have hdrop : (l ++ r).drop ((l ++ r).length / 2) = r := by
    rw [hlen, ← hl, List.drop_left]
  simp only [genProofLoop, if_neg hcz, simpleKV, hget, Option.getD_some, htake, hdrop]

theorem genProof_walk {H : Bytes → Bytes} (hg : GoodHash H) {path leaf : Bytes}
    (hlen : leaf.length = 32) (hnz : leaf ≠ zero_value) (s' : AL)
    (hstore : ∀ m, m + 1 ≤ 256 →
      alGet s' (dchain H path leaf (m + 1)) = some (nodeChildren H path leaf m)) :
    ∀ n, n ≤ 256 → ∀ acc,
      genProofLoop simpleKV H s' path (List.range' (256 - n) n) (dchain H path leaf n) acc =
        .ok (acc ++ List.replicate n zero_value) := by
  intro n
  induction n with
  | zero => intro _ acc; simp [genProofLoop]
  | succ k ih =>
    intro hk acc
    have hr : List.range' (256 - (k + 1)) (k + 1) =
        (256 - (k + 1)) :: List.range' (256 - k) k := by
      have harith : 256 - (k + 1) + 1 = 256 - k := by omega
      rw [List.range'_succ, harith]
    rw [hr]
    by_cases hb : pathBit path (256 - (k + 1)) = 0
    · rw [genProofLoop_simple_cons H s' path _ _ _ acc
        (dchain_nz hg hnz (k + 1)) (dchain H path leaf k) zero_value
        (by rw [hstore k hk, nodeChildren, if_pos hb])
        (dchain_length hg hlen k) zero_value_length]
      rw [if_pos hb, ih (by omega) (acc ++ [zero_value])]
      simp [List.replicate_succ, List.append_assoc]
    · rw [genProofLoop_simple_cons H s' path _ _ _ acc
        (dchain_nz hg hnz (k + 1)) zero_value (dchain H path leaf k)
        (by rw [hstore k hk, nodeChildren, if_neg hb])
        zero_value_length (dchain_length hg hlen k)]
      rw [if_neg hb, ih (by omega) (acc ++ [zero_value])]
      simp [List.replicate_succ, List.append_assoc]

theorem generate_proof_after_update {H : Bytes → Bytes} (hg : GoodHash H)
    (t : SparseMerkleTree AL) (key value : Bytes) :
    SparseMerkleTree.generate_proof simpleKV H
        (SparseMerkleTree.update simpleKV H t key value).1 key =
      .ok ⟨List.replicate 256 zero_value⟩ := by
  unfold SparseMerkleTree.generate_proof
  rw [update_simple_store, update_root_chain, revRange256_eq]
  have hstore : ∀ m, m + 1 ≤ 256 →
      alGet (updateLoop simpleKV H (H key) (countdown 256) (digest_leaf H (H key) value)
          (alSet (alSet t.store (H key) value) (digest_leaf H (H key) value)
            (zero_value ++ zero_value))).2.1
        (dchain H (H key) (digest_leaf H (H key) value) (m + 1)) =
      some (nodeChildren H (H key) (digest_leaf H (H key) value) m) := by
    intro m hm
    exact @updateLoop_full_store_node H hg (H key) (digest_leaf H (H key) value)
      (hg.len32 _) (hg.nz _) ⟨H key ++ value, rfl⟩ m hm _
  have hw := @genProof_walk H hg (H key) (digest_leaf H (H key) value)
    (hg.len32 _) (hg.nz _) _ hstore 256 (by omega) []
  rw [List.range_eq_range']
  rw [show (256 : Nat) - 256 = 0 from rfl] at hw
  rw [List.nil_append] at hw
  rw [hw]

theorem replicate_zip_map {z : Bytes} :
    ∀ l : List Nat, l.zip (List.replicate l.length z) = l.map (fun i => (i, z)) := by
  intro l
  induction l with
  | nil => rfl
  | cons x t ih =>
    simp only [List.length_cons, List.replicate_succ, List.zip_cons_cons, List.map_cons]
    rw [ih]

theorem replicate_enum_reverse (n : Nat) (z : Bytes) :
    (List.replicate n z).enum.reverse = (countdown n).map (fun i => (i, z)) := by
  rw [List.enum_eq_zip_range, List.length_replicate]
  rw [show List.replicate n z = List.replicate (List.range n).length z by
    rw [List.length_range]]
  rw [replicate_zip_map, ← List.map_reverse, revRange_countdown]

theorem verifyLoop_countdown_zero (H : Bytes → Bytes) (path : Bytes) :
    ∀ (n : Nat) (cur : Bytes),
      verifyLoop H path ((countdown n).map (fun i => (i, zero_value))) cur =
        vchain H path n cur := by
  intro n
  induction n with
  | zero => intro cur; rfl
  | succ k ih =>
    intro cur
    show verifyLoop H path ((k, zero_value) :: (countdown k).map (fun i => (i, zero_value)))
        cur = vchain H path k (combineBit H path k cur)
    simp only [verifyLoop]
    rw [ih]
    congr 1

theorem digest_leaf_value_inj {H : Bytes → Bytes} (hg : GoodHash H)
    {path v v' : Bytes} (h : digest_leaf H path v' = digest_leaf H path v) : v' = v := by
  unfold digest_leaf at h
  have h2 := hg.inj h
  injection h2 with _ h3
  exact List.append_cancel_left h3

/-- After update(key, value) on any prior tree state, verifying the
generated proof for the same key against the current root with any value
different from the one written returns false, assuming a collision-free
32-byte never-zero hash. -/
theorem latest_update_wrong_value_false {H : Bytes → Bytes} (hg : GoodHash H)
    (t : SparseMerkleTree AL) (key value v' : Bytes) (hne : v' ≠ value) :
    (SparseMerkleTree.generate_proof simpleKV H
        (SparseMerkleTree.update simpleKV H t key value).1 key).map
      (fun p => p.verify H
        (SparseMerkleTree.update simpleKV H t key value).1.root key v') =
      .ok false := by
  rw [generate_proof_after_update hg t key value, update_root_chain]
  show Except.ok (MerkleProof.verify ⟨List.replicate 256 zero_value⟩ H
    (dchain H (H key) (digest_leaf H (H key) value) 256) key v') = .ok false
  unfold MerkleProof.verify
  simp only
  rw [replicate_enum_reverse, verifyLoop_countdown_zero]
  have hroot : dchain H (H key) (digest_leaf H (H key) value) 256 =
      vchain H (H key) 256 (digest_leaf H (H key) value) := by
    have h := vchain_dchain (H := H) (H key) (digest_leaf H (H key) value) 256 (by omega)
    rw [dchain_full_start] at h
    exact h.symm
  rw [hroot]
  have hfalse : ¬ (vchain H (H key) 256 (digest_leaf H (H key) v') =
      vchain H (H key) 256 (digest_leaf H (H key) value)) := by
    intro hcontra
    have h2 := vchain_inj hg (H key) 256 _ _ (hg.len32 _) (hg.len32 _) hcontra
    exact hne (digest_leaf_value_inj hg h2)
  simp [hfalse]

/-! The proof walk for a key whose path diverges at the root level. -/

theorem pathBit_cases (p : Bytes) (i : Nat) : pathBit p i = 0 ∨ pathBit p i = 1 := by
  unfold pathBit
  rw [Nat.and_one_is_mod]
  omega

theorem nodeChildren_top (H : Bytes → Bytes) (path leaf : Bytes) :
    nodeChildren H path leaf 255 =
      if pathBit path 0 = 0 then dchain H path leaf 255 ++ zero_value
      else zero_value ++ dchain H path leaf 255 := by
  rw [nodeChildren]

theorem dchain_top (H : Bytes → Bytes) (path leaf : Bytes) :
    dchain H path leaf 256 =
      if pathBit path 0 = 0 then digest_node H (dchain H path leaf 255) zero_value
      else digest_node H zero_value (dchain H path leaf 255) := by
  show combineBit H path (256 - 256) (dchain H path leaf 255) = _
  rw [show (256 : Nat) - 256 = 0 from rfl]
  rfl

theorem genProof_other_key {H : Bytes → Bytes} (hg : GoodHash H)
    (t : SparseMerkleTree AL) (k1 k2 v2 : Bytes)
    (hbit : pathBit (H k1) 0 ≠ pathBit (H k2) 0) :
    SparseMerkleTree.generate_proof simpleKV H
        (SparseMerkleTree.update simpleKV H t k2 v2).1 k1 =
      .ok ⟨[dchain H (H k2) (digest_leaf H (H k2) v2) 255]⟩ := by
  unfold SparseMerkleTree.generate_proof
  rw [update_simple_store, update_root_chain, revRange256_eq]
  have hrange : List.range 256 = 0 :: List.range' 1 255 := by
    rw [List.range_eq_range']
    rfl
  rw [hrange]
  have hread : alGet (updateLoop simpleKV H (H k2) (countdown 256)
      (digest_leaf H (H k2) v2)
      (alSet (alSet t.store (H k2) v2) (digest_leaf H (H k2) v2)
        (zero_value ++ zero_value))).2.1
      (dchain H (H k2) (digest_leaf H (H k2) v2) 256) =
      some (nodeChildren H (H k2) (digest_leaf H (H k2) v2) 255) :=
    @updateLoop_full_store_node H hg (H k2) (digest_leaf H (H k2) v2)
      (hg.len32 _) (hg.nz _) ⟨H k2 ++ v2, rfl⟩ 255 (by omega) _
  by_cases hb2 : pathBit (H k2) 0 = 0
  · have hb1 : pathBit (H k1) 0 ≠ 0 := fun h => hbit (h.trans hb2.symm)
    have hstep := genProofLoop_simple_cons H
      ((updateLoop simpleKV H (H k2) (countdown 256)
      (digest_leaf H (H k2) v2)
      (alSet (alSet t.store (H k2) v2) (digest_leaf H (H k2) v2)
        (zero_value ++ zero_value))).2.1)
      (H k1) 0 (List.range' 1 255)
      (dchain H (H k2) (digest_leaf H (H k2) v2) 256) []
      (dchain_nz hg (hg.nz (0 :: (H k2 ++ v2))) 256)
      (dchain H (H k2) (digest_leaf H (H k2) v2) 255) zero_value
      (by rw [hread, nodeChildren_top, if_pos hb2])
      (dchain_length hg (hg.len32 (0 :: (H k2 ++ v2))) 255) zero_value_length
    rw [hstep, if_neg hb1, genProofLoop_zero_current]
    rfl
  · have hb1 : pathBit (H k1) 0 = 0 := by
      rcases pathBit_cases (H k1) 0 with h | h
      · exact h
      · rcases pathBit_cases (H k2) 0 with h2 | h2
        · exact absurd h2 hb2
        · exact absurd (h.trans h2.symm) hbit
    have hstep := genProofLoop_simple_cons H
      ((updateLoop simpleKV H (H k2) (countdown 256)
      (digest_leaf H (H k2) v2)
      (alSet (alSet t.store (H k2) v2) (digest_leaf H (H k2) v2)
        (zero_value ++ zero_value))).2.1)
      (H k1) 0 (List.range' 1 255)
      (dchain H (H k2) (digest_leaf H (H k2) v2) 256) []
      (dchain_nz hg (hg.nz (0 :: (H k2 ++ v2))) 256)
      zero_value (dchain H (H k2) (digest_leaf H (H k2) v2) 255)
      (by rw [hread, nodeChildren_top, if_neg hb2])
      zero_value_length (dchain_length hg (hg.len32 (0 :: (H k2 ++ v2))) 255)
    rw [hstep, if_pos hb1, genProofLoop_zero_current]
    rfl

theorem older_key_verify_false {H : Bytes → Bytes} (hg : GoodHash H)
    (t : SparseMerkleTree AL) (k1 k2 v2 v' : Bytes)
    (hbit : pathBit (H k1) 0 ≠ pathBit (H k2) 0) :
    MerkleProof.verify ⟨[dchain H (H k2) (digest_leaf H (H k2) v2) 255]⟩ H
      (SparseMerkleTree.update simpleKV H t k2 v2).1.root k1 v' = false := by
  rw [update_root_chain]
  unfold MerkleProof.verify
  simp only
  have henum : (⟨[dchain H (H k2) (digest_leaf H (H k2) v2) 255]⟩ :
      MerkleProof).side_nodes.enum.reverse =
      [(0, dchain H (H k2) (digest_leaf H (H k2) v2) 255)] := rfl
  rw [henum]
  show decide (verifyLoop H (H k1)
    [(0, dchain H (H k2) (digest_leaf H (H k2) v2) 255)]
    (digest_leaf H (H k1) v') =
    dchain H (H k2) (digest_leaf H (H k2) v2) 256) = false
  rw [dchain_top]
  have hstep : verifyLoop H (H k1)
      [(0, dchain H (H k2) (digest_leaf H (H k2) v2) 255)]
      (digest_leaf H (H k1) v') =
      if pathBit (H k1) 0 = 0
      then digest_node H (digest_leaf H (H k1) v')
        (dchain H (H k2) (digest_leaf H (H k2) v2) 255)
      else digest_node H (dchain H (H k2) (digest_leaf H (H k2) v2) 255)
        (digest_leaf H (H k1) v') := by
    by_cases hb : pathBit (H k1) 0 = 0 <;> simp [verifyLoop, hb]
  rw [hstep]
  by_cases hb2 : pathBit (H k2) 0 = 0
  · have hb1 : pathBit (H k1) 0 ≠ 0 := fun h => hbit (h.trans hb2.symm)
    rw [if_neg hb1, if_pos hb2]
    have hne : digest_node H (dchain H (H k2) (digest_leaf H (H k2) v2) 255)
        (digest_leaf H (H k1) v') ≠
        digest_node H (dchain H (H k2) (digest_leaf H (H k2) v2) 255) zero_value := by
      intro h
      exact hg.nz _ (digest_node_inj hg rfl h).2
    simp [hne]
  · have hb1 : pathBit (H k1) 0 = 0 := by
      rcases pathBit_cases (H k1) 0 with h | h
      · exact h
      · rcases pathBit_cases (H k2) 0 with h2 | h2
        · exact absurd h2 hb2
        · exact absurd (h.trans h2.symm) hbit
    rw [if_pos hb1, if_neg hb2]
    have hne : digest_node H (digest_leaf H (H k1) v')
        (dchain H (H k2) (digest_leaf H (H k2) v2) 255) ≠
        digest_node H zero_value (dchain H (H k2) (digest_leaf H (H k2) v2) 255) := by
      intro h
      exact hg.nz _ (digest_node_inj hg
        (by rw [zero_value_length]; exact hg.len32 _) h).1
    simp [hne]

/-- C1: after inserting two distinct 32-byte keys whose hashed paths differ
at the root-level bit, the first key's flat round-trip still succeeds but
its generated proof no longer verifies against the final root: the second
update rebuilt the root with the empty digest as sibling everywhere, so
the tree does not authenticate both keys simultaneously. -/
theorem smt_c1_multikey_roundtrip_fails {H : Bytes → Bytes} (hg : GoodHash H)
    (t : SparseMerkleTree AL) (k1 v1 k2 v2 : Bytes) (hk1 : k1.length = 32)
    (hne : k1 ≠ k2) (hbit : pathBit (H k1) 0 ≠ pathBit (H k2) 0) :
    SparseMerkleTree.get simpleKV H
        (SparseMerkleTree.update simpleKV H
          (SparseMerkleTree.update simpleKV H t k1 v1).1 k2 v2).1 k1 =
      .ok (some v1) ∧
    (SparseMerkleTree.generate_proof simpleKV H
        (SparseMerkleTree.update simpleKV H
          (SparseMerkleTree.update simpleKV H t k1 v1).1 k2 v2).1 k1).map
      (fun p => p.verify H
        (SparseMerkleTree.update simpleKV H
          (SparseMerkleTree.update simpleKV H t k1 v1).1 k2 v2).1.root k1 v1) =
      .ok false := by
  constructor
  · unfold SparseMerkleTree.get
    rw [if_neg (update_root_nz hg _ k2 v2), simpleKV_get,
      update_store_preserve hg _ k2 v2 k1 hk1 hne,
      update_store_path hg t k1 v1 hk1]
  · rw [genProof_other_key hg _ k1 k2 v2 hbit]
    simp only [Except.map]
    rw [older_key_verify_false hg _ k1 k2 v2 v1 hbit]

set_option maxRecDepth 100000 in
/-- C1 witness: the multi-key failure theorem applied at the witness hash,
an empty tree, and the two concrete witness keys and values. -/
theorem smt_c1_multikey_roundtrip_fails_witness :
    GoodHash wtag ∧ w1key.length = 32 ∧ w1key ≠ w2key ∧
    pathBit (wtag w1key) 0 ≠ pathBit (wtag w2key) 0 ∧
    (SparseMerkleTree.get simpleKV wtag
        (SparseMerkleTree.update simpleKV wtag
          (SparseMerkleTree.update simpleKV wtag (SparseMerkleTree.new ([] : AL))
            w1key w1val).1 w2key w2val).1 w1key = .ok (some w1val) ∧
     (SparseMerkleTree.generate_proof simpleKV wtag
        (SparseMerkleTree.update simpleKV wtag
          (SparseMerkleTree.update simpleKV wtag (SparseMerkleTree.new ([] : AL))
            w1key w1val).1 w2key w2val).1 w1key).map
      (fun p => p.verify wtag
        (SparseMerkleTree.update simpleKV wtag
          (SparseMerkleTree.update simpleKV wtag (SparseMerkleTree.new ([] : AL))
            w1key w1val).1 w2key w2val).1.root w1key w1val) = .ok false) :=
  ⟨goodHash_tagHash w1key w2key (by decide), by decide, by decide, by decide,
   smt_c1_multikey_roundtrip_fails (goodHash_tagHash w1key w2key (by decide))
     (SparseMerkleTree.new ([] : AL)) w1key w1val w2key w2val
     (by decide) (by decide) (by decide)⟩

/-- C4: proof soundness fails for a key that is not the most recently
updated one: after updating a second key whose hashed path differs at the
root-level bit, the proof generated for the first key verifies false
against the current root for every claimed value, although update(k1, v1)
has occurred. -/
theorem smt_c4_proof_soundness_fails {H : Bytes → Bytes} (hg : GoodHash H)
    (t : SparseMerkleTree AL) (k1 k2 v2 v' : Bytes)
    (hbit : pathBit (H k1) 0 ≠ pathBit (H k2) 0) :
    (SparseMerkleTree.generate_proof simpleKV H
        (SparseMerkleTree.update simpleKV H t k2 v2).1 k1).map
      (fun p => p.verify H
        (SparseMerkleTree.update simpleKV H t k2 v2).1.root k1 v') =
      .ok false := by
  rw [genProof_other_key hg t k1 k2 v2 hbit]
  simp only [Except.map]
  rw [older_key_verify_false hg t k1 k2 v2 v' hbit]

set_option maxRecDepth 100000 in
/-- C4 witness: the soundness-failure theorem applied at the witness hash,
the tree holding the first witness key, and the second witness key. -/
theorem smt_c4_proof_soundness_fails_witness :
    GoodHash wtag ∧ pathBit (wtag w1key) 0 ≠ pathBit (wtag w2key) 0 ∧
    (SparseMerkleTree.generate_proof simpleKV wtag
        (SparseMerkleTree.update simpleKV wtag
          (SparseMerkleTree.update simpleKV wtag (SparseMerkleTree.new ([] : AL))
            w1key w1val).1 w2key w2val).1 w1key).map
      (fun p => p.verify wtag
        (SparseMerkleTree.update simpleKV wtag
          (SparseMerkleTree.update simpleKV wtag (SparseMerkleTree.new ([] : AL))
            w1key w1val).1 w2key w2val).1.root w1key w1val) = .ok false :=
  ⟨goodHash_tagHash w1key w2key (by decide), by decide,
   smt_c4_proof_soundness_fails (goodHash_tagHash w1key w2key (by decide))
     (SparseMerkleTree.update simpleKV wtag (SparseMerkleTree.new ([] : AL))
       w1key w1val).1 w1key w2key w2val w1val (by decide)⟩

/-! Failure propagation over the budgeted store. -/

theorem countdown_length : ∀ n : Nat, (countdown n).length = n
  | 0 => rfl
  | n + 1 => by simp [countdown, countdown_length n]

theorem hashkey_ne_digest_node {H : Bytes → Bytes} (hg : GoodHash H)
    {k' : Bytes} (hk' : k'.length = 32) (l r : Bytes) (hl : l.length = 32)
    (hr : r.length = 32) : H k' ≠ digest_node H l r := by
  intro h
  unfold digest_node at h
  have h3 := congrArg List.length (hg.inj h)
  simp only [List.length_cons, List.length_append, hl, hr, hk'] at h3
  omega

theorem budget_set_zero (s : AL) (k v : Bytes) :
    budgetKV.set (s, 0) k v = ((s, 0), .error ()) := rfl

theorem budget_set_succ (s : AL) (b : Nat) (k v : Bytes) :
    budgetKV.set (s, b + 1) k v = ((alSet s k v, b), .ok ()) := by
  simp [budgetKV]

theorem budgetLoop_err (H : Bytes → Bytes) (path : Bytes) :
    ∀ (is : List Nat) (cur : Bytes) (s : AL) (b : Nat), b < is.length →
      (updateLoop budgetKV H path is cur (s, b)).2.2 = .error () := by
  intro is
  induction is with
  | nil => intro cur s b hb; exact absurd hb (by simp)
  | cons i rest ih =>
    intro cur s b hb
    cases b with
    | zero => simp [updateLoop, budget_set_zero]
    | succ b' =>
      simp only [updateLoop, budget_set_succ]
      exact ih _ _ b' (by simpa using hb)

theorem budgetLoop_store {H : Bytes → Bytes} (hg : GoodHash H) (path q : Bytes)
    (hq : ∀ l r : Bytes, l.length = 32 → r.length = 32 → q ≠ digest_node H l r) :
    ∀ (is : List Nat) (cur : Bytes), cur.length = 32 → ∀ (s : AL) (b : Nat),
      alGet (updateLoop budgetKV H path is cur (s, b)).2.1.1 q = alGet s q := by
  intro is
  induction is with
  | nil => intro cur _ s b; rfl
  | cons i rest ih =>
    intro cur hcur s b
    cases b with
    | zero => simp [updateLoop, budget_set_zero]
    | succ b' =>
      by_cases hb : pathBit path i = 0
      · simp only [updateLoop, budget_set_succ, if_pos hb]
        rw [ih (digest_node H cur zero_value) (hg.len32 _) _ b']
        exact alGet_alSet_ne _ _ _ _ (hq _ _ hcur zero_value_length)
      · simp only [updateLoop, budget_set_succ, if_neg hb]
        rw [ih (digest_node H zero_value cur) (hg.len32 _) _ b']
        exact alGet_alSet_ne _ _ _ _ (hq _ _ zero_value_length hcur)

theorem budget_update_err {H : Bytes → Bytes} (hg : GoodHash H) (s : AL) (b : Nat)
    (root0 key value : Bytes) (hb : b ≤ 257) :
    (SparseMerkleTree.update budgetKV H ⟨root0, (s, b)⟩ key value).2 = .error () ∧
    (SparseMerkleTree.update budgetKV H ⟨root0, (s, b)⟩ key value).1.root = root0 ∧
    ∀ q : Bytes, (∀ l r : Bytes, l.length = 32 → r.length = 32 → q ≠ digest_node H l r) →
      q ≠ H key → q ≠ digest_leaf H (H key) value →
      alGet (SparseMerkleTree.update budgetKV H ⟨root0, (s, b)⟩ key value).1.store.1 q =
        alGet s q := by
  cases b with
  | zero => exact ⟨rfl, rfl, fun q _ _ _ => rfl⟩
  | succ b0 =>
    cases b0 with
    | zero =>
      refine ⟨rfl, rfl, fun q hq hqp hql => ?_⟩
      show alGet (alSet s (H key) value) q = alGet s q
      exact alGet_alSet_ne _ _ _ _ hqp
    | succ b1 =>
      have hlen : b1 < revRange256.length := by
        rw [revRange256_eq, countdown_length]
        omega
      have herr := budgetLoop_err H (H key) revRange256 (digest_leaf H (H key) value)
        (alSet (alSet s (H key) value) (digest_leaf H (H key) value)
          (zero_value ++ zero_value)) b1 hlen
      rcases hu : updateLoop budgetKV H (H key) revRange256 (digest_leaf H (H key) value)
        (alSet (alSet s (H key) value) (digest_leaf H (H key) value)
          (zero_value ++ zero_value), b1) with ⟨c, s2, r⟩
      rw [hu] at herr
      simp only at herr
      subst herr
      refine ⟨?_, ?_, ?_⟩
      · simp only [SparseMerkleTree.update, budget_set_succ, hu]
      · simp only [SparseMerkleTree.update, budget_set_succ, hu]
      · intro q hq hqp hql
        simp only [SparseMerkleTree.update, budget_set_succ, hu]
        show alGet s2.1 q = alGet s q
        have hst := budgetLoop_store hg (H key) q hq revRange256
          (digest_leaf H (H key) value) (hg.len32 _)
          (alSet (alSet s (H key) value) (digest_leaf H (H key) value)
            (zero_value ++ zero_value)) b1
        rw [hu] at hst
        simp only at hst
        rw [hst, alGet_alSet_ne _ _ _ _ hql, alGet_alSet_ne _ _ _ _ hqp]

/-- C7 (amended): when update on a budgeted store fails with a store error
(any write budget at most 257 makes some set in the 256-level walk fail),
the root keeps its previous value, and get is unchanged for every 32-byte
key other than the one being updated, under a collision-free 32-byte hash;
only the updated key's flat binding may already reflect the new value. -/
theorem smt_c7_error_keeps_root {H : Bytes → Bytes} (hg : GoodHash H) (s : AL)
    (b : Nat) (root0 key value k' : Bytes) (hb : b ≤ 257)
    (hk' : k'.length = 32) (hne : k' ≠ key) :
    (SparseMerkleTree.update budgetKV H ⟨root0, (s, b)⟩ key value).2 = .error () ∧
    (SparseMerkleTree.update budgetKV H ⟨root0, (s, b)⟩ key value).1.root = root0 ∧
    SparseMerkleTree.get budgetKV H
        (SparseMerkleTree.update budgetKV H ⟨root0, (s, b)⟩ key value).1 k' =
      SparseMerkleTree.get budgetKV H ⟨root0, (s, b)⟩ k' := by
  obtain ⟨h1, h2, h3⟩ := budget_update_err hg s b root0 key value hb
  refine ⟨h1, h2, ?_⟩
  unfold SparseMerkleTree.get
  rw [h2]
  by_cases hr : root0 = zero_value
  · rw [if_pos hr, if_pos hr]
  · rw [if_neg hr, if_neg hr]
    show Except.ok (alGet
      (SparseMerkleTree.update budgetKV H ⟨root0, (s, b)⟩ key value).1.store.1 (H k')) =
      Except.ok (alGet s (H k'))
    rw [h3 (H k') (fun l r hl hr2 => hashkey_ne_digest_node hg hk' l r hl hr2)
      (fun h => hne (hg.inj h)) (hashkey_ne_digest_leaf hg hk' (hg.len32 key))]

/-- C7 (amended) witness: the error-propagation theorem applied at the
collision-free witness hash, a zero write budget, and concrete keys. -/
theorem smt_c7_error_keeps_root_witness :
    GoodHash encHash ∧ (0 : Nat) ≤ 257 ∧ (w1key : Bytes).length = 32 ∧ w1key ≠ w2key ∧
    ((SparseMerkleTree.update budgetKV encHash ⟨zero_value, ([], 0)⟩ w2key w2val).2 =
        .error () ∧
     (SparseMerkleTree.update budgetKV encHash ⟨zero_value, ([], 0)⟩ w2key w2val).1.root =
        zero_value ∧
     SparseMerkleTree.get budgetKV encHash
        (SparseMerkleTree.update budgetKV encHash ⟨zero_value, ([], 0)⟩ w2key w2val).1
          w1key =
      SparseMerkleTree.get budgetKV encHash ⟨zero_value, ([], 0)⟩ w1key) :=
  ⟨goodHash_encHash, by decide, by decide, by decide,
   smt_c7_error_keeps_root goodHash_encHash [] 0 zero_value w2key w2val w1key
     (by decide) (by decide) (by decide)⟩

/-! The proof walk for an arbitrary key over the single-path state left by
the most recent update: the walk follows the latest key's chain while the
two hashed paths agree bitwise and stops at the first disagreement. -/

theorem vchain_congr (H : Bytes → Bytes) {p1 p2 : Bytes} :
    ∀ n, (∀ i, i < n → pathBit p1 i = pathBit p2 i) → ∀ x,
      vchain H p1 n x = vchain H p2 n x := by
  intro n
  induction n with
  | zero => intro _ x; rfl
  | succ k ih =>
    intro hag x
    show vchain H p1 k (combineBit H p1 k x) = vchain H p2 k (combineBit H p2 k x)
    have hc : combineBit H p1 k x = combineBit H p2 k x := by
      unfold combineBit
      rw [hag k (Nat.lt_succ_self k)]
    rw [hc]
    exact ih (fun i hi => hag i (by omega)) _

theorem genProof_walk_agree {H : Bytes → Bytes} (hg : GoodHash H)
    (p1 : Bytes) {path leaf : Bytes}
    (hlen : leaf.length = 32) (hnz : leaf ≠ zero_value) (s' : AL)
    (hstore : ∀ m, m + 1 ≤ 256 →
      alGet s' (dchain H path leaf (m + 1)) = some (nodeChildren H path leaf m)) :
    ∀ n, n ≤ 256 → (∀ i, 256 - n ≤ i → i < 256 → pathBit p1 i = pathBit path i) →
      ∀ acc,
      genProofLoop simpleKV H s' p1 (List.range' (256 - n) n) (dchain H path leaf n) acc =
        .ok (acc ++ List.replicate n zero_value) := by
  intro n
  induction n with
  | zero => intro _ _ acc; simp [genProofLoop]
  | succ k ih =>
    intro hk hag acc
    have hr : List.range' (256 - (k + 1)) (k + 1) =
        (256 - (k + 1)) :: List.range' (256 - k) k := by
      have harith : 256 - (k + 1) + 1 = 256 - k := by omega
      rw [List.range'_succ, harith]
    rw [hr]
    have hagi : pathBit p1 (256 - (k + 1)) = pathBit path (256 - (k + 1)) :=
      hag (256 - (k + 1)) (by omega) (by omega)
    by_cases hb : pathBit path (256 - (k + 1)) = 0
    · rw [genProofLoop_simple_cons H s' p1 _ _ _ acc
        (dchain_nz hg hnz (k + 1)) (dchain H path leaf k) zero_value
        (by rw [hstore k hk, nodeChildren, if_pos hb])
        (dchain_length hg hlen k) zero_value_length]
      rw [if_pos (hagi.trans hb), ih (by omega) (fun i h1 h2 => hag i (by omega) h2)
        (acc ++ [zero_value])]
      simp [List.replicate_succ, List.append_assoc]
    · rw [genProofLoop_simple_cons H s' p1 _ _ _ acc
        (dchain_nz hg hnz (k + 1)) zero_value (dchain H path leaf k)
        (by rw [hstore k hk, nodeChildren, if_neg hb])
        zero_value_length (dchain_length hg hlen k)]
      rw [if_neg (fun h => hb (hagi.symm.trans h)), ih (by omega)
        (fun i h1 h2 => hag i (by omega) h2) (acc ++ [zero_value])]
      simp [List.replicate_succ, List.append_assoc]

theorem genProof_walk_diverge {H : Bytes → Bytes} (hg : GoodHash H)
    (p1 : Bytes) {path leaf : Bytes}
    (hlen : leaf.length = 32) (hnz : leaf ≠ zero_value) (s' : AL)
    (hstore : ∀ m, m + 1 ≤ 256 →
      alGet s' (dchain H path leaf (m + 1)) = some (nodeChildren H path leaf m)) :
    ∀ n, n ≤ 256 → ∀ j, 256 - n ≤ j → j < 256 →
      (∀ i, 256 - n ≤ i → i < j → pathBit p1 i = pathBit path i) →
      pathBit p1 j ≠ pathBit path j → ∀ acc,
      genProofLoop simpleKV H s' p1 (List.range' (256 - n) n) (dchain H path leaf n) acc =
        .ok (acc ++ List.replicate (j - (256 - n)) zero_value ++
          [dchain H path leaf (255 - j)]) := by
  intro n
  induction n with
  | zero => intro _ j hj1 hj2 _ _ _; omega
  | succ k ih =>
    intro hk j hj1 hj2 hag hdis acc
    have hr : List.range' (256 - (k + 1)) (k + 1) =
        (256 - (k + 1)) :: List.range' (256 - k) k := by
      have harith : 256 - (k + 1) + 1 = 256 - k := by omega
      rw [List.range'_succ, harith]
    rw [hr]
    by_cases hji : j = 256 - (k + 1)
    · have hdis0 : pathBit p1 (256 - (k + 1)) ≠ pathBit path (256 - (k + 1)) := by
        rw [← hji]; exact hdis
      have e255 : 255 - j = k := by omega
      have erep : j - (256 - (k + 1)) = 0 := by omega
      by_cases hb : pathBit path (256 - (k + 1)) = 0
      · have hb1 : pathBit p1 (256 - (k + 1)) ≠ 0 := fun h => hdis0 (h.trans hb.symm)
        rw [genProofLoop_simple_cons H s' p1 _ _ _ acc
          (dchain_nz hg hnz (k + 1)) (dchain H path leaf k) zero_value
          (by rw [hstore k hk, nodeChildren, if_pos hb])
          (dchain_length hg hlen k) zero_value_length]
        rw [if_neg hb1, genProofLoop_zero_current, e255, erep]
        simp
      · have hb1 : pathBit p1 (256 - (k + 1)) = 0 := by
          rcases pathBit_cases p1 (256 - (k + 1)) with h | h
          · exact h
          · rcases pathBit_cases path (256 - (k + 1)) with h2 | h2
            · exact absurd h2 hb
            · exact absurd (h.trans h2.symm) hdis0
        rw [genProofLoop_simple_cons H s' p1 _ _ _ acc
          (dchain_nz hg hnz (k + 1)) zero_value (dchain H path leaf k)
          (by rw [hstore k hk, nodeChildren, if_neg hb])
          zero_value_length (dchain_length hg hlen k)]
        rw [if_pos hb1, genProofLoop_zero_current, e255, erep]
        simp
    · have hagi : pathBit p1 (256 - (k + 1)) = pathBit path (256 - (k + 1)) :=
        hag (256 - (k + 1)) (by omega) (by omega)
      have erep : j - (256 - (k + 1)) = (j - (256 - k)) + 1 := by omega
      by_cases hb : pathBit path (256 - (k + 1)) = 0
      · rw [genProofLoop_simple_cons H s' p1 _ _ _ acc
          (dchain_nz hg hnz (k + 1)) (dchain H path leaf k) zero_value
          (by rw [hstore k hk, nodeChildren, if_pos hb])
          (dchain_length hg hlen k) zero_value_length]
        rw [if_pos (hagi.trans hb)]
        rw [ih (by omega) j (by omega) hj2 (fun i h1 h2 => hag i (by omega) h2) hdis
          (acc ++ [zero_value])]
        rw [erep]
        simp [List.replicate_succ, List.append_assoc]
      · rw [genProofLoop_simple_cons H s' p1 _ _ _ acc
          (dchain_nz hg hnz (k + 1)) zero_value (dchain H path leaf k)
          (by rw [hstore k hk, nodeChildren, if_neg hb])
          zero_value_length (dchain_length hg hlen k)]
        rw [if_neg (fun h => hb (hagi.symm.trans h))]
        rw [ih (by omega) j (by omega) hj2 (fun i h1 h2 => hag i (by omega) h2) hdis
          (acc ++ [zero_value])]
        rw [erep]
        simp [List.replicate_succ, List.append_assoc]

theorem generate_proof_agree_allbits {H : Bytes → Bytes} (hg : GoodHash H)
    (t : SparseMerkleTree AL) (kn vn K : Bytes)
    (hag : ∀ i, i < 256 → pathBit (H K) i = pathBit (H kn) i) :
    SparseMerkleTree.generate_proof simpleKV H
        (SparseMerkleTree.update simpleKV H t kn vn).1 K =
      .ok ⟨List.replicate 256 zero_value⟩ := by
  unfold SparseMerkleTree.generate_proof
  rw [update_simple_store, update_root_chain, revRange256_eq]
  have hstore : ∀ m, m + 1 ≤ 256 →
      alGet (updateLoop simpleKV H (H kn) (countdown 256) (digest_leaf H (H kn) vn)
          (alSet (alSet t.store (H kn) vn) (digest_leaf H (H kn) vn)
            (zero_value ++ zero_value))).2.1
        (dchain H (H kn) (digest_leaf H (H kn) vn) (m + 1)) =
      some (nodeChildren H (H kn) (digest_leaf H (H kn) vn) m) := by
    intro m hm
    exact @updateLoop_full_store_node H hg (H kn) (digest_leaf H (H kn) vn)
      (hg.len32 _) (hg.nz _) ⟨H kn ++ vn, rfl⟩ m hm _
  have hw := @genProof_walk_agree H hg (H K) (H kn) (digest_leaf H (H kn) vn)
    (hg.len32 _) (hg.nz _) _ hstore 256 (by omega)
    (fun i h1 h2 => hag i h2) []
  rw [List.range_eq_range']
  rw [show (256 : Nat) - 256 = 0 from rfl] at hw
  rw [List.nil_append] at hw
  rw [hw]

theorem generate_proof_diverge {H : Bytes → Bytes} (hg : GoodHash H)
    (t : SparseMerkleTree AL) (kn vn K : Bytes) (j : Nat) (hj : j < 256)
    (hmin : ∀ i, i < j → pathBit (H K) i = pathBit (H kn) i)
    (hdis : pathBit (H K) j ≠ pathBit (H kn) j) :
    SparseMerkleTree.generate_proof simpleKV H
        (SparseMerkleTree.update simpleKV H t kn vn).1 K =
      .ok ⟨List.replicate j zero_value ++
        [dchain H (H kn) (digest_leaf H (H kn) vn) (255 - j)]⟩ := by
  unfold SparseMerkleTree.generate_proof
  rw [update_simple_store, update_root_chain, revRange256_eq]
  have hstore : ∀ m, m + 1 ≤ 256 →
      alGet (updateLoop simpleKV H (H kn) (countdown 256) (digest_leaf H (H kn) vn)
          (alSet (alSet t.store (H kn) vn) (digest_leaf H (H kn) vn)
            (zero_value ++ zero_value))).2.1
        (dchain H (H kn) (digest_leaf H (H kn) vn) (m + 1)) =
      some (nodeChildren H (H kn) (digest_leaf H (H kn) vn) m) := by
    intro m hm
    exact @updateLoop_full_store_node H hg (H kn) (digest_leaf H (H kn) vn)
      (hg.len32 _) (hg.nz _) ⟨H kn ++ vn, rfl⟩ m hm _
  have hw := @genProof_walk_diverge H hg (H K) (H kn) (digest_leaf H (H kn) vn)
    (hg.len32 _) (hg.nz _) _ hstore 256 (by omega) j (by omega) hj
    (fun i h1 h2 => hmin i h2) hdis []
  rw [List.range_eq_range']
  rw [show (256 : Nat) - 256 = 0 from rfl] at hw
  rw [Nat.sub_zero] at hw
  rw [List.nil_append] at hw
  rw [hw]

/-! Verification of the walk's output against the single-path root. -/

theorem trunc_enum_reverse (j : Nat) (z d : Bytes) :
    (List.replicate j z ++ [d]).enum.reverse =
      (j, d) :: (countdown j).map (fun i => (i, z)) := by
  rw [List.enum_eq_zip_range]
  have hlen : (List.replicate j z ++ [d]).length = j + 1 := by simp
  rw [hlen, List.range_succ]
  have hzl : (List.range j).length = (List.replicate j z).length := by simp
  rw [List.zip_append hzl]
  rw [show List.replicate j z = List.replicate (List.range j).length z by
    rw [List.length_range]]
  rw [replicate_zip_map, List.reverse_append, ← List.map_reverse, revRange_countdown]
  rfl

theorem verify_allagree_false {H : Bytes → Bytes} (hg : GoodHash H)
    (t : SparseMerkleTree AL) (kn vn K v' : Bytes)
    (hag : ∀ i, i < 256 → pathBit (H K) i = pathBit (H kn) i)
    (hpne : H K ≠ H kn) :
    MerkleProof.verify ⟨List.replicate 256 zero_value⟩ H
      (SparseMerkleTree.update simpleKV H t kn vn).1.root K v' = false := by
  rw [update_root_chain]
  unfold MerkleProof.verify
  simp only
  show decide (verifyLoop H (H K) (List.replicate 256 zero_value).enum.reverse
      (digest_leaf H (H K) v') =
    dchain H (H kn) (digest_leaf H (H kn) vn) 256) = false
  rw [replicate_enum_reverse, verifyLoop_countdown_zero]
  rw [vchain_congr H 256 hag]
  have hroot : dchain H (H kn) (digest_leaf H (H kn) vn) 256 =
      vchain H (H kn) 256 (digest_leaf H (H kn) vn) := by
    have h := vchain_dchain (H := H) (H kn) (digest_leaf H (H kn) vn) 256 (by omega)
    rw [dchain_full_start] at h
    exact h.symm
  rw [hroot]
  have hne2 : vchain H (H kn) 256 (digest_leaf H (H K) v') ≠
      vchain H (H kn) 256 (digest_leaf H (H kn) vn) := by
    intro hcontra
    have h2 := vchain_inj hg (H kn) 256 _ _ (hg.len32 _) (hg.len32 _) hcontra
    unfold digest_leaf at h2
    have h3 := hg.inj h2
    injection h3 with _ h4
    exact hpne (List.append_inj h4 (by rw [hg.len32, hg.len32])).1
  simp [hne2]

theorem verify_truncated_false {H : Bytes → Bytes} (hg : GoodHash H)
    (t : SparseMerkleTree AL) (kn vn K v' : Bytes) (j : Nat) (hj : j < 256)
    (hmin : ∀ i, i < j → pathBit (H K) i = pathBit (H kn) i)
    (hdis : pathBit (H K) j ≠ pathBit (H kn) j) :
    MerkleProof.verify ⟨List.replicate j zero_value ++
        [dchain H (H kn) (digest_leaf H (H kn) vn) (255 - j)]⟩ H
      (SparseMerkleTree.update simpleKV H t kn vn).1.root K v' = false := by
  rw [update_root_chain]
  unfold MerkleProof.verify
  simp only
  show decide (verifyLoop H (H K)
      (List.replicate j zero_value ++
        [dchain H (H kn) (digest_leaf H (H kn) vn) (255 - j)]).enum.reverse
      (digest_leaf H (H K) v') =
    dchain H (H kn) (digest_leaf H (H kn) vn) 256) = false
  rw [trunc_enum_reverse]
  have hstep : verifyLoop H (H K)
      ((j, dchain H (H kn) (digest_leaf H (H kn) vn) (255 - j)) ::
        (countdown j).map (fun i => (i, zero_value)))
      (digest_leaf H (H K) v') =
      vchain H (H K) j
        (if pathBit (H K) j = 0
         then digest_node H (digest_leaf H (H K) v')
           (dchain H (H kn) (digest_leaf H (H kn) vn) (255 - j))
         else digest_node H (dchain H (H kn) (digest_leaf H (H kn) vn) (255 - j))
           (digest_leaf H (H K) v')) := by
    simp only [verifyLoop]
    rw [verifyLoop_countdown_zero]
  rw [hstep]
  rw [vchain_congr H j hmin]
  have hroot : dchain H (H kn) (digest_leaf H (H kn) vn) 256 =
      vchain H (H kn) j (combineBit H (H kn) j
        (dchain H (H kn) (digest_leaf H (H kn) vn) (255 - j))) := by
    have h := vchain_dchain (H := H) (H kn) (digest_leaf H (H kn) vn) (j + 1) (by omega)
    rw [show 256 - (j + 1) = 255 - j from by omega] at h
    exact h.symm
  rw [hroot]
  by_cases hb2 : pathBit (H kn) j = 0
  · have hb1 : pathBit (H K) j ≠ 0 := fun h => hdis (h.trans hb2.symm)
    rw [if_neg hb1]
    have hY : combineBit H (H kn) j
        (dchain H (H kn) (digest_leaf H (H kn) vn) (255 - j)) =
        digest_node H (dchain H (H kn) (digest_leaf H (H kn) vn) (255 - j))
          zero_value := by
      unfold combineBit; rw [if_pos hb2]
    rw [hY]
    have hne2 : vchain H (H kn) j
        (digest_node H (dchain H (H kn) (digest_leaf H (H kn) vn) (255 - j))
          (digest_leaf H (H K) v')) ≠
        vchain H (H kn) j
          (digest_node H (dchain H (H kn) (digest_leaf H (H kn) vn) (255 - j))
            zero_value) := by
      intro hcontra
      have h2 := vchain_inj hg (H kn) j _ _ (hg.len32 _) (hg.len32 _) hcontra
      exact hg.nz _ (digest_node_inj hg rfl h2).2
    simp [hne2]
  · have hb1 : pathBit (H K) j = 0 := by
      rcases pathBit_cases (H K) j with h | h
      · exact h
      · rcases pathBit_cases (H kn) j with h2 | h2
        · exact absurd h2 hb2
        · exact absurd (h.trans h2.symm) hdis
    rw [if_pos hb1]
    have hY : combineBit H (H kn) j
        (dchain H (H kn) (digest_leaf H (H kn) vn) (255 - j)) =
        digest_node H zero_value
          (dchain H (H kn) (digest_leaf H (H kn) vn) (255 - j)) := by
      unfold combineBit; rw [if_neg hb2]
    rw [hY]
    have hne2 : vchain H (H kn) j
        (digest_node H (digest_leaf H (H K) v')
          (dchain H (H kn) (digest_leaf H (H kn) vn) (255 - j))) ≠
        vchain H (H kn) j
          (digest_node H zero_value
            (dchain H (H kn) (digest_leaf H (H kn) vn) (255 - j))) := by
      intro hcontra
      have h2 := vchain_inj hg (H kn) j _ _ (hg.len32 _) (hg.len32 _) hcontra
      exact hg.nz _ (digest_node_inj hg
        (by rw [zero_value_length]; exact hg.len32 _) h2).1
    simp [hne2]

theorem update_any_key_wrong_value_false {H : Bytes → Bytes} (hg : GoodHash H)
    (t : SparseMerkleTree AL) (kn vn K V v' : Bytes) (hkn : kn.length = 32)
    (hget : SparseMerkleTree.get simpleKV H
      (SparseMerkleTree.update simpleKV H t kn vn).1 K = .ok (some V))
    (hne : v' ≠ V) :
    (SparseMerkleTree.generate_proof simpleKV H
        (SparseMerkleTree.update simpleKV H t kn vn).1 K).map
      (fun p => p.verify H
        (SparseMerkleTree.update simpleKV H t kn vn).1.root K v') = .ok false := by
  by_cases hpk : H K = H kn
  · have hKk : K = kn := hg.inj hpk
    subst hKk
    have h2 : SparseMerkleTree.get simpleKV H
        (SparseMerkleTree.update simpleKV H t K vn).1 K = .ok (some vn) := by
      unfold SparseMerkleTree.get
      rw [if_neg (update_root_nz hg t K vn), simpleKV_get,
        update_store_path hg t K vn hkn]
    rw [hget] at h2
    have h4 : V = vn := Option.some.inj (Except.ok.inj h2)
    rw [h4] at hne
    exact latest_update_wrong_value_false hg t K vn v' hne
  · by_cases hagree : ∀ i, i < 256 → pathBit (H K) i = pathBit (H kn) i
    · rw [generate_proof_agree_allbits hg t kn vn K hagree]
      simp only [Except.map]
      rw [verify_allagree_false hg t kn vn K v' hagree hpk]
    · push_neg at hagree
      obtain ⟨i0, hi0, hd0⟩ := hagree
      have hex : ∃ n, pathBit (H K) n ≠ pathBit (H kn) n := ⟨i0, hd0⟩
      have hjP : pathBit (H K) (Nat.find hex) ≠ pathBit (H kn) (Nat.find hex) :=
        Nat.find_spec hex
      have hjmin : ∀ i, i < Nat.find hex → pathBit (H K) i = pathBit (H kn) i :=
        fun i hi => not_ne_iff.mp (Nat.find_min hex hi)
      have hjlt : Nat.find hex < 256 :=
        Nat.lt_of_le_of_lt (Nat.find_min' hex hd0) hi0
      rw [generate_proof_diverge hg t kn vn K (Nat.find hex) hjlt hjmin hjP]
      simp only [Except.map]
      rw [verify_truncated_false hg t kn vn K v' (Nat.find hex) hjlt hjmin hjP]

theorem runOps_cases (H : Bytes → Bytes) :
    ∀ (ops : List TreeOp) (t : SparseMerkleTree AL), ops.all opKeyOk = true →
      runOps H t ops = t ∨
      (∃ t' k v, k.length = 32 ∧
        runOps H t ops = (SparseMerkleTree.update simpleKV H t' k v).1) ∨
      (∃ t' k, runOps H t ops = (SparseMerkleTree.remove simpleKV H t' k).1) := by
  intro ops
  induction ops with
  | nil => intro t _; exact Or.inl rfl
  | cons op rest ih =>
    intro t hall
    have hall2 : opKeyOk op = true ∧ rest.all opKeyOk = true := by
      simpa [List.all_cons, Bool.and_eq_true] using hall
    cases op with
    | upd k v =>
      rcases ih (SparseMerkleTree.update simpleKV H t k v).1 hall2.2 with he | h | h
      · exact Or.inr (Or.inl ⟨t, k, v, of_decide_eq_true hall2.1, he⟩)
      · exact Or.inr (Or.inl h)
      · exact Or.inr (Or.inr h)
    | rem k =>
      rcases ih (SparseMerkleTree.remove simpleKV H t k).1 hall2.2 with he | h | h
      · exact Or.inr (Or.inr ⟨t, k, he⟩)
      · exact Or.inr (Or.inl h)
      · exact Or.inr (Or.inr h)

/-- C5: over any operation history on a fresh tree (any sequence of updates
and removes of the source's 32-byte keys), every key K holding a current
value V has divergent values rejected: for every value v' different from V,
verifying the proof generated for K against the current root returns false,
assuming a collision-free 32-byte never-zero hash. -/
theorem smt_c5_wrong_value_rejected {H : Bytes → Bytes} (hg : GoodHash H)
    (s0 : AL) (ops : List TreeOp) (hops : ops.all opKeyOk = true)
    (K V v' : Bytes)
    (hget : SparseMerkleTree.get simpleKV H
      (runOps H (SparseMerkleTree.new s0) ops) K = .ok (some V))
    (hne : v' ≠ V) :
    (SparseMerkleTree.generate_proof simpleKV H
        (runOps H (SparseMerkleTree.new s0) ops) K).map
      (fun p => p.verify H (runOps H (SparseMerkleTree.new s0) ops).root K v') =
      .ok false := by
  rcases runOps_cases H ops (SparseMerkleTree.new s0) hops with
    he | ⟨t', k, v, hk, he⟩ | ⟨t', k, he⟩
  · rw [he] at hget
    have h0 : SparseMerkleTree.get simpleKV H (SparseMerkleTree.new s0) K =
        .ok none := rfl
    rw [h0] at hget
    exact absurd (Except.ok.inj hget) (fun hc => Option.noConfusion hc)
  · rw [he] at hget ⊢
    exact update_any_key_wrong_value_false hg t' k v K V v' hk hget hne
  · rw [he] at hget
    have h0 : SparseMerkleTree.get simpleKV H
        (SparseMerkleTree.remove simpleKV H t' k).1 K = .ok none := rfl
    rw [h0] at hget
    exact absurd (Except.ok.inj hget) (fun hc => Option.noConfusion hc)

set_option maxRecDepth 100000 in
/-- C5 witness: the wrong-value rejection theorem applied at the witness
hash and a concrete two-update history, querying the older key: its current
value is certified by get and a different value is rejected. -/
theorem smt_c5_wrong_value_rejected_witness :
    GoodHash wtag ∧
    ([TreeOp.upd w1key w1val, TreeOp.upd w2key w2val].all opKeyOk = true) ∧
    (SparseMerkleTree.get simpleKV wtag
      (runOps wtag (SparseMerkleTree.new ([] : AL))
        [TreeOp.upd w1key w1val, TreeOp.upd w2key w2val]) w1key =
      .ok (some w1val)) ∧
    w2val ≠ w1val ∧
    (SparseMerkleTree.generate_proof simpleKV wtag
        (runOps wtag (SparseMerkleTree.new ([] : AL))
          [TreeOp.upd w1key w1val, TreeOp.upd w2key w2val]) w1key).map
      (fun p => p.verify wtag
        (runOps wtag (SparseMerkleTree.new ([] : AL))
          [TreeOp.upd w1key w1val, TreeOp.upd w2key w2val]).root w1key w2val) =
      .ok false := by
  have hgw : GoodHash wtag := goodHash_tagHash w1key w2key (by decide)
  have hget : SparseMerkleTree.get simpleKV wtag
      (runOps wtag (SparseMerkleTree.new ([] : AL))
        [TreeOp.upd w1key w1val, TreeOp.upd w2key w2val]) w1key =
      .ok (some w1val) := by
    show SparseMerkleTree.get simpleKV wtag
      (SparseMerkleTree.update simpleKV wtag
        (SparseMerkleTree.update simpleKV wtag (SparseMerkleTree.new ([] : AL))
          w1key w1val).1 w2key w2val).1 w1key = .ok (some w1val)
    unfold SparseMerkleTree.get
    rw [if_neg (update_root_nz hgw _ w2key w2val), simpleKV_get,
      update_store_preserve hgw _ w2key w2val w1key (by decide) (by decide),
      update_store_path hgw _ w1key w1val (by decide)]
  exact ⟨hgw, by decide, hget, by decide,
    smt_c5_wrong_value_rejected hgw ([] : AL)
      [TreeOp.upd w1key w1val, TreeOp.upd w2key w2val] (by decide)
      w1key w1val w2val hget (by decide)⟩
